import Mathlib

/-!
Verification of the relation dependency resolver, the DDL/DML builders, the
design validator column check, and the load driver of the arthur-redshift-etl
repository.  The Lean definitions below are shallow embeddings of the Python
functions in `python/etl/relation.py` and `python/etl/load.py`; each definition
carries a comment pointing to the function it models.
-/

namespace Etl

/-! ## Small Python-semantics helpers -/

/-- Truthiness of a Python `Optional[int]` value: `None` and `0` are falsy,
every other integer is truthy.  Used to model `all(others)` / `any(others)` in
`order_by_dependencies`. -/
def pyTruthy : Option Nat → Bool
  | none => false
  | some k => k != 0

/-- Python `max` over the non-`None` entries of a list (0 when there are none).
In `order_by_dependencies` the source only applies `max` when the relevant
entries exist, so the default is never observed. -/
def maxSome (l : List (Option Nat)) : Nat :=
  l.foldl (fun acc o => match o with | some k => Nat.max acc k | none => acc) 0

/-- Python `str.replace(c, r)` for a single-character pattern `c`: every
occurrence of the character is replaced by the string `r`. -/
def pyReplaceChar (c : Char) (r : String) (s : String) : String :=
  ⟨s.data.foldr (fun ch acc => if ch = c then r.data ++ acc else ch :: acc) []⟩

/-- Python substring containment `sub in s`. -/
def pyIn (sub s : String) : Bool :=
  s.data.tails.any (fun t => sub.data.isPrefixOf t)

/-- Python `list.insert(i, a)`: insert at position `i`, appending when `i` is
past the end of the list. -/
def pyInsert : Nat → String → List String → List String
  | 0, a, l => a :: l
  | _+1, a, [] => [a]
  | n+1, a, x :: xs => x :: pyInsert n a xs

/-- A single-quote character as a string, used to build SQL literals. -/
def sq : String := String.singleton (Char.ofNat 39)

/-! ## Relation descriptions and the dependency resolver
(`python/etl/relation.py`) -/

/-- The slice of `RelationDescription` that `order_by_dependencies` reads and
writes: `identifier` (from `target_table_name.identifier`), the resolved
`dependencies` set (initially `set(table_design["depends_on"])`, held here as a
list), and the mutable `order` field (`None` until the resolver assigns it). -/
structure RelationDescription where
  identifier : String
  dependencies : List String
  order : Option Nat
deriving DecidableEq

instance : Inhabited RelationDescription := ⟨⟨"", [], none⟩⟩

/-- Entries of the priority queue: `(priority, tie_breaker, index)` where the
index stands for the Python reference to the description object and the
tie breaker is the initial position (so ties never reach the third slot). -/
abbrev QItem := Nat × Nat × Nat

/-- Lexicographic comparison on `(priority, tie_breaker)`, as performed by
Python tuple comparison inside `queue.PriorityQueue`. -/
def itemLE (a b : QItem) : Bool :=
  decide (a.1 < b.1 ∨ (a.1 = b.1 ∧ a.2.1 ≤ b.2.1))

/-- Remove the minimum element of the queue, modelling `PriorityQueue.get`. -/
def popMin : List QItem → Option (QItem × List QItem)
  | [] => none
  | x :: xs =>
    match popMin xs with
    | none => some (x, [])
    | some (m, rest) => if itemLE x m then some (x, xs) else some (m, x :: rest)

/-- `known_tables = frozenset(description.identifier ...)`, kept as the list of
identifiers in input order (only membership and the deduplicated cardinality
are ever used). -/
def known_tables (descs : List RelationDescription) : List String :=
  descs.map (·.identifier)

/-- `nr_tables = len(known_tables)`: the number of distinct identifiers. -/
def nr_tables (descs : List RelationDescription) : Nat :=
  ((known_tables descs).dedup).length

/-- The narrowing step of `order_by_dependencies`: compute
`unknown = dependencies - known` and, when it is non-empty, replace the
dependencies by `dependencies - unknown` (the known dependencies). -/
def narrowDependencies (known : List String) (d : RelationDescription) :
    RelationDescription :=
  let unknown := d.dependencies.filter (fun s => !(known.contains s))
  if unknown.isEmpty then d
  else { d with dependencies := d.dependencies.filter (fun s => known.contains s) }

/-- The mutable state of the resolver loop: the descriptions (aliased by the
queue entries and by `table_map` in the source), the pending queue, and
`latest`, the highest order assigned so far. -/
structure ResolverState where
  descriptions : List RelationDescription
  queue : List QItem
  latest : Nat
deriving DecidableEq

/-- State at the top of the `while` loop: dependencies narrowed to known
identifiers and every description queued at priority 1 keyed by input order
(the `enumerate` of the source). -/
def initState (descs : List RelationDescription) : ResolverState :=
  { descriptions := descs.map (narrowDependencies (known_tables descs))
  , queue := (List.range descs.length).map (fun i => (1, i, i))
  , latest := 0 }

/-- `table_map[dep].order`: find the (first) description whose identifier is
`dep` and read its order.  After narrowing, every queried `dep` is present, so
the `none` fallback of a failed find is never reached. -/
def lookupOrder (descs : List RelationDescription) (dep : String) : Option Nat :=
  match descs.find? (fun r => r.identifier == dep) with
  | some r => r.order
  | none => none

/-- One iteration of the resolver loop body after the popped item passed the
cycle bound: compute `others` and either assign an order or requeue, exactly
following the four branches of the source. -/
def stepBody (st : ResolverState) (m t i : Nat) (rest : List QItem) :
    ResolverState :=
  let desc := st.descriptions.getD i default
  let others := desc.dependencies.map (lookupOrder st.descriptions)
  if others.isEmpty then
    { descriptions := st.descriptions.set i { desc with order := some (st.latest + 1) }
    , queue := rest, latest := st.latest + 1 }
  else if others.all pyTruthy then
    let v := Nat.max (maxSome others) st.latest + 1
    { descriptions := st.descriptions.set i { desc with order := some v }
    , queue := rest, latest := v }
  else if others.any pyTruthy then
    let at_least := maxSome others
    { st with queue := (Nat.max (Nat.max at_least st.latest) m + 1, t, i) :: rest }
  else
    { st with queue := (Nat.max st.latest m + 1, t, i) :: rest }

/-- The final `sorted(table_descriptions, key=attrgetter("order"))`.  Python
`sorted` is a stable sort keyed here by the assigned order (every order is
assigned at this point, so the `getD` default is never compared); a stable
sort is modelled by insertion sort, whose output is the unique stable
reordering. -/
def sortByOrder (descs : List RelationDescription) : List RelationDescription :=
  descs.insertionSort (fun a b => a.order.getD 0 ≤ b.order.getD 0)

/-- Result of `order_by_dependencies`: the returned sorted list together with
the descriptions in input order as the run left them (Python mutates the input
objects in place), a raised `CyclicDependencyError`, or exhausted fuel (the
Python loop has no fuel; theorems below show sufficient fuel is computable). -/
inductive ResolveResult where
  | ok (dependency_ordered : List RelationDescription)
       (final : List RelationDescription)
  | cyclicDependencyError
  | outOfFuel
deriving DecidableEq

/-- The `while not queue.empty()` loop of `order_by_dependencies`, with the
cycle check `if minimum > 2 * nr_tables: raise CyclicDependencyError`. -/
def resolveLoop (n : Nat) : Nat → ResolverState → ResolveResult
  | 0, _ => .outOfFuel
  | fuel+1, st =>
    match popMin st.queue with
    | none => .ok (sortByOrder st.descriptions) st.descriptions
    | some ((m, t, i), rest) =>
      if 2*n < m then .cyclicDependencyError
      else resolveLoop n fuel (stepBody st m t i rest)

/-- `order_by_dependencies(table_descriptions)` (relation.py). -/
def order_by_dependencies (descs : List RelationDescription) (fuel : Nat) :
    ResolveResult :=
  resolveLoop (nr_tables descs) fuel (initState descs)

/-- Projection on results: the descriptions in input order, when no error. -/
def ResolveResult.final? : ResolveResult → Option (List RelationDescription)
  | .ok _ f => some f
  | _ => none

/-- Projection on results: the dependency-ordered list, when no error. -/
def ResolveResult.sorted? : ResolveResult → Option (List RelationDescription)
  | .ok s _ => some s
  | _ => none

/-- Whether the resolver returned normally. -/
def ResolveResult.isOk : ResolveResult → Bool
  | .ok _ _ => true
  | _ => false

/-- Edge of the dependency graph restricted to the batch: the relation at
index `j` is a declared dependency of the relation at index `i`. -/
def EdgeIn (descs : List RelationDescription) (j i : Nat) : Prop :=
  j < descs.length ∧ i < descs.length ∧
    (descs.getD j default).identifier ∈ (descs.getD i default).dependencies

/-- A directed cycle in the dependency graph restricted to the batch: a
non-empty index list `a :: c` whose consecutive members are edges and whose
last member has an edge back to the first.  The one-element list is the
degenerate self-dependency. -/
def HasCycle (descs : List RelationDescription) : Prop :=
  ∃ (a : Nat) (c : List Nat),
    (a :: c).Chain' (fun x y => EdgeIn descs x y) ∧
    EdgeIn descs ((a :: c).getLast (List.cons_ne_nil a c)) a

/-- The loop invariant of `order_by_dependencies`, over the number of
relations `n`, the (narrowed, immutable) identifier and dependency columns
`ids` / `deps0`, and the current state: the descriptions keep their
identifiers and narrowed dependencies; the queue holds exactly the
not-yet-ordered descriptions, each once, keyed by its initial index, with
priorities within the budget; `latest` counts the assigned orders; assigned
orders lie in `[1, latest]` and strictly dominate the orders of all their
dependencies; and all remaining dependencies are known identifiers. -/
structure Inv (n : Nat) (ids : List String) (deps0 : List (List String))
    (st : ResolverState) : Prop where
  hlen : st.descriptions.length = n
  hids : st.descriptions.map (·.identifier) = ids
  hdeps : st.descriptions.map (·.dependencies) = deps0
  hq : ∀ x ∈ st.queue, x.2.2 < n ∧ x.2.1 = x.2.2 ∧ x.1 ≤ 2*n+1
  hqnd : (st.queue.map (fun x => x.2.2)).Nodup
  hun : ∀ i, i < n →
    ((st.descriptions.getD i default).order = none
      ↔ i ∈ st.queue.map (fun x => x.2.2))
  hlatest : st.latest = st.descriptions.countP (fun r => r.order.isSome)
  hord : ∀ r ∈ st.descriptions, ∀ o, r.order = some o → 1 ≤ o ∧ o ≤ st.latest
  hF : ∀ r ∈ st.descriptions, ∀ o, r.order = some o → ∀ d ∈ r.dependencies,
    ∃ o', lookupOrder st.descriptions d = some o' ∧ o' < o
  hdk : ∀ r ∈ st.descriptions, ∀ d ∈ r.dependencies, d ∈ ids

/-- Termination measure of the loop: total remaining priority budget. -/
def qMeasure (n : Nat) (st : ResolverState) : Nat :=
  (st.queue.map (fun x => 2*n + 2 - x.1)).sum

/-- The priority bound that keeps an acyclic batch below the cycle check:
every queued priority is at most `latest + rank + 1` for a topological
rank function. -/
def QRank (rank : Nat → Nat) (st : ResolverState) : Prop :=
  ∀ x ∈ st.queue, x.1 ≤ st.latest + rank x.2.2 + 1

/-- Reset the mutable `order` field, modelling freshly rebuilt descriptors. -/
def resetOrders (descs : List RelationDescription) : List RelationDescription :=
  descs.map (fun d => { d with order := none })

/-- Fuel that provably suffices for the resolver to finish (return or raise). -/
def resolveFuel (descs : List RelationDescription) : Nat :=
  descs.length * (2 * nr_tables descs + 1) + 1

/-- Concrete two-relation acyclic batch used to exercise the resolver: `a.a`
depends on `b.b`. -/
def c3batch : List RelationDescription :=
  [⟨"a.a", ["b.b"], none⟩, ⟨"b.b", [], none⟩]

/-! ## Table designs and the DDL/DML builders (`python/etl/load.py`) -/

/-- One entry of `table_design["columns"]`.  Optional JSON keys with a false
default (`not_null`, `identity`, `skipped`) are booleans; `encoding` and
`references` are optional; `foreign_table` / `foreign_column` are the keys
that `assemble_table_ddl` writes into the column via `column.update`. -/
structure Column where
  name : String
  sql_type : String
  type : String
  not_null : Bool
  identity : Bool
  skipped : Bool
  encoding : Option String
  references : Option (String × List String)
  foreign_table : Option String
  foreign_column : Option String
deriving DecidableEq

/-- `table_design["constraints"]`, each key optional. -/
structure Constraints where
  primary_key : Option (List String)
  surrogate_key : Option (List String)
  unique : Option (List String)
  natural_key : Option (List String)
  foreign_key : Option (List String × String × List String)
deriving DecidableEq

/-- `table_design["attributes"]["distribution"]`: either a list of columns
(distribute by key) or a style string such as "all" or "even". -/
inductive Distribution where
  | key (columns : List String)
  | style (s : String)
deriving DecidableEq

/-- `table_design["attributes"]`, each key optional. -/
structure Attributes where
  distribution : Option Distribution
  compound_sort : Option (List String)
  interleaved_sort : Option (List String)
deriving DecidableEq

/-- The slice of a table design read by the DDL/DML builders and the column
validator. -/
structure TableDesign where
  name : String
  source_name : String
  columns : List Column
  constraints : Constraints
  attributes : Attributes
deriving DecidableEq

/-- `format_column_list(columns)` (load.py). -/
def format_column_list (columns : List String) : String :=
  String.intercalate ", " (columns.map (fun c => "\"" ++ c ++ "\""))

/-- String form of `etl.TableName(schema, table)`, which renders as the
delimited pair of identifiers. -/
def tableNameStr (schema table : String) : String :=
  "\"" ++ schema ++ "\".\"" ++ table ++ "\""

/-- Python `reference.split(chr(46), 1)` as used on a foreign-key reference:
split at the first dot (designs always contain one). -/
def splitFirstDot (s : String) : String × String :=
  match s.splitOn "." with
  | [] => (s, "")
  | [a] => (a, "")
  | a :: rest => (a, String.intercalate "." rest)

/-- `_build_constraints(table_design, exclude_foreign_keys)` (load.py). -/
def build_constraints (td : TableDesign) (exclude_foreign_keys : Bool) :
    List String :=
  (match td.constraints.primary_key with
   | some pk => ["PRIMARY KEY ( " ++ format_column_list pk ++ " )"]
   | none => []) ++
  (match td.constraints.surrogate_key with
   | some pk => ["PRIMARY KEY ( " ++ format_column_list pk ++ " )"]
   | none => []) ++
  (match td.constraints.unique with
   | some nk => ["UNIQUE ( " ++ format_column_list nk ++ " )"]
   | none => []) ++
  (match td.constraints.natural_key with
   | some nk => ["UNIQUE ( " ++ format_column_list nk ++ " )"]
   | none => []) ++
  (match td.constraints.foreign_key, exclude_foreign_keys with
   | some (local_columns, reference, reference_columns), false =>
     let rt := splitFirstDot reference
     ["FOREIGN KEY ( " ++ format_column_list local_columns ++ " ) REFERENCES "
        ++ tableNameStr rt.1 rt.2 ++ " ( " ++ format_column_list reference_columns ++ " )"]
   | _, _ => [])

/-- `_build_attributes(table_design, exclude_distribution)` (load.py). -/
def build_attributes (td : TableDesign) (exclude_distribution : Bool) :
    List String :=
  (match td.attributes.distribution, exclude_distribution with
   | some (.key cols), false =>
     ["DISTSTYLE KEY", "DISTKEY ( " ++ format_column_list cols ++ " )"]
   | some (.style s), false =>
     if s = "all" ∨ s = "even" then ["DISTSTYLE " ++ s.toUpper] else []
   | _, _ => []) ++
  (match td.attributes.compound_sort with
   | some cols => ["COMPOUND SORTKEY ( " ++ format_column_list cols ++ " )"]
   | none =>
     match td.attributes.interleaved_sort with
     | some cols => ["INTERLEAVED SORTKEY ( " ++ format_column_list cols ++ " )"]
     | none => [])

/-- The per-column fragment built by the loop of `assemble_table_ddl`: the
format template assembled from the column keys and then instantiated. -/
def formatColumnSpec (use_identity is_temp : Bool) (c : Column) : String :=
  "\"" ++ c.name ++ "\" " ++ c.sql_type
  ++ (if c.identity && use_identity then " IDENTITY(1, 1)" else "")
  ++ (match c.encoding with
      | some e => " ENCODE " ++ e
      | none => "")
  ++ (if c.not_null then " NOT NULL" else "")
  ++ (match c.references, is_temp with
      | some (ft, fcols), false =>
        " REFERENCES " ++ ft ++ " ( " ++ format_column_list fcols ++ " )"
      | _, _ => "")

/-- The in-place `column.update(...)` performed by `assemble_table_ddl` on a
non-skipped column carrying a `references` entry (when not building the
temporary variant): the derived `foreign_table` / `foreign_column` keys are
written into the column dictionary. -/
def updateColumn (is_temp : Bool) (c : Column) : Column :=
  if c.skipped then c
  else match c.references, is_temp with
    | some (ft, fcols), false =>
      { c with foreign_table := some ft
             , foreign_column := some (format_column_list fcols) }
    | _, _ => c

/-- `assemble_table_ddl(table_design, table_name, use_identity, is_temp)`
(load.py).  Returns the DDL text together with the design as the call leaves
it (the source mutates the column dictionaries of its input). -/
def assemble_table_ddl (td : TableDesign) (table_name : String)
    (use_identity is_temp : Bool) : String × TableDesign :=
  let s_columns := (td.columns.filter (fun c => !c.skipped)).map
      (formatColumnSpec use_identity is_temp)
  let s_constraints := build_constraints td is_temp
  let s_attributes := build_attributes td is_temp
  let table_type := if is_temp then "TEMP TABLE" else "TABLE"
  let text := "CREATE " ++ table_type ++ " IF NOT EXISTS " ++ table_name ++ " (\n"
      ++ String.intercalate ",\n" (s_columns ++ s_constraints) ++ ")\n"
      ++ String.intercalate "\n" s_attributes
  (pyReplaceChar '\n' "\n    " text,
   { td with columns := td.columns.map (updateColumn is_temp) })

/-- The column list of `create_view` (load.py): every design column, with no
filter on the `skipped` marker. -/
def viewColumnNames (td : TableDesign) : List String :=
  td.columns.map (·.name)

/-- The `ddl_stmt` assembled by `create_view` (load.py) before execution. -/
def create_view_ddl (td : TableDesign) (view_name : String)
    (query_stmt : String) : String :=
  "CREATE OR REPLACE VIEW " ++ view_name ++ " (\n"
    ++ format_column_list (viewColumnNames td) ++ "\n) AS\n" ++ query_stmt

/-- The column list of `assemble_ctas_ddl` (load.py): columns that are neither
identity nor skipped. -/
def ctasColumnNames (td : TableDesign) : List String :=
  (td.columns.filter (fun c => !(c.identity || c.skipped))).map (·.name)

/-- `assemble_ctas_ddl(table_design, temp_name, query_stmt)` (load.py). -/
def assemble_ctas_ddl (td : TableDesign) (temp_name : String)
    (query_stmt : String) : String :=
  let s_columns := format_column_list (ctasColumnNames td)
  let s_attributes := build_attributes td true
  pyReplaceChar '\n' "\n     "
      ("CREATE TEMP TABLE " ++ temp_name ++ " (\n" ++ s_columns ++ ")\n"
        ++ String.intercalate "\n" s_attributes ++ "\nAS\n")
    ++ query_stmt

/-- The column list of `assemble_insert_into_dml` (load.py): all non-skipped
columns. -/
def insertColumnNames (td : TableDesign) : List String :=
  (td.columns.filter (fun c => !c.skipped)).map (·.name)

/-- The per-column placeholder of the literal key-0 row appended by
`assemble_insert_into_dml` when `add_row_for_key_0` is set, following the
if/elif chain of the source loop. -/
def naValue (c : Column) : String :=
  if c.identity then "0"
  else if !c.not_null then "NULL::" ++ c.sql_type
  else if pyIn "timestamp" c.sql_type then
    sq ++ "0000-01-01 00:00:00" ++ sq
  else if pyIn "string" c.type then sq ++ "N/A" ++ sq
  else if pyIn "boolean" c.type then "FALSE"
  else "0"

/-- `na_values_row` of `assemble_insert_into_dml`: one placeholder for every
non-skipped column (skipped columns are passed over by `continue`). -/
def na_values_row (td : TableDesign) : List String :=
  (td.columns.filter (fun c => !c.skipped)).map naValue

/-- `assemble_insert_into_dml(table_design, table_name, temp_name,
add_row_for_key_0)` (load.py), reproducing the two template strings of the
source, including their indentation and the final `replace` on the
`UNION ALL` variant. -/
def assemble_insert_into_dml (td : TableDesign) (table_name temp_name : String)
    (add_row_for_key_0 : Bool) : String :=
  let s_columns := format_column_list (insertColumnNames td)
  if add_row_for_key_0 then
    let s_values := String.intercalate ", " (na_values_row td)
    pyReplaceChar '\n' "\n    "
      ("INSERT INTO " ++ table_name
        ++ "\n                    (SELECT"
        ++ "\n                         " ++ s_columns
        ++ "\n                       FROM " ++ temp_name
        ++ "\n                      UNION ALL"
        ++ "\n                     SELECT"
        ++ "\n                         " ++ s_values ++ ")")
  else
    "INSERT INTO " ++ table_name
      ++ "\n                    (SELECT " ++ s_columns
      ++ "\n                       FROM " ++ temp_name ++ ")"

/-- Names of the columns whose fragments the loop of `assemble_table_ddl`
emits (the non-skipped columns, in design order). -/
def tableDdlColumnNames (td : TableDesign) : List String :=
  (td.columns.filter (fun c => !c.skipped)).map (·.name)

/-- Forget the two column keys that `assemble_table_ddl` writes, to compare
designs up to that mutation. -/
def eraseForeignKeys (c : Column) : Column :=
  { c with foreign_table := none, foreign_column := none }

/-- Design with a column carrying a `references` entry, used to exhibit the
in-place mutation performed by `assemble_table_ddl`. -/
def c5design : TableDesign :=
  ⟨"t", "CTAS",
   [⟨"customer_id", "integer", "int", false, false, false, none,
     some ("public.customers", ["id"]), none, none⟩],
   ⟨none, none, none, none, none⟩, ⟨none, none, none⟩⟩

/-- The design of the DDL determinism/fragment test: an identity, non-null
integer `id` and a `numeric(10,2)` `amount`, with primary key `id`. -/
def c6design : TableDesign :=
  ⟨"t", "CTAS",
   [⟨"id", "integer", "int", true, true, false, none, none, none, none⟩,
    ⟨"amount", "numeric(10,2)", "number", false, false, false, none, none, none, none⟩],
   ⟨some ["id"], none, none, none, none⟩, ⟨none, none, none⟩⟩

/-- Design with a skipped column, used against the view DDL column list. -/
def c7design : TableDesign :=
  ⟨"t", "VIEW",
   [⟨"keep_me", "integer", "int", false, false, false, none, none, none, none⟩,
    ⟨"borked_column", "integer", "int", false, false, true, none, none, none, none⟩],
   ⟨none, none, none, none, none⟩, ⟨none, none, none⟩⟩

/-- Design with an identity column, a non-null timestamp column and a non-null
string column, used on the literal key-0 row of the swap DML. -/
def c8design : TableDesign :=
  ⟨"t", "CTAS",
   [⟨"id", "integer", "int", true, true, false, none, none, none, none⟩,
    ⟨"created_at", "timestamp without time zone", "timestamp", true, false, false,
      none, none, none, none⟩,
    ⟨"label", "varchar(10)", "string", true, false, false, none, none, none, none⟩],
   ⟨none, none, none, none, none⟩, ⟨none, none, none⟩⟩

/-! ## Design validator column check (`python/etl/relation.py`) -/

/-- The `expected` list of `_check_columns`: declared non-skipped column
names. -/
def expectedColumns (td : TableDesign) : List String :=
  (td.columns.filter (fun c => !c.skipped)).map (·.name)

/-- The reinsertion loop of `_check_columns`: for every declared identity
column (enumerated over the full column list), insert its name into the
observed list at the declared position. -/
def reinsertIdentityColumns (td : TableDesign) (observed : List String) :
    List String :=
  (td.columns.enum).foldl
    (fun obs p => if p.2.identity then pyInsert p.1 p.2.name obs else obs)
    observed

/-- Whether `_check_columns(observed, table_design)` reports a mismatch: the
source returns a diff message exactly when the reinserted observed list
differs from the expected list, and `None` otherwise. -/
def check_columns_mismatch (observed : List String) (td : TableDesign) : Bool :=
  reinsertIdentityColumns td observed != expectedColumns td

/-- Design columns `[a (identity), b, c]` of the validator reinsertion test. -/
def c9design : TableDesign :=
  ⟨"t", "CTAS",
   [⟨"a", "integer", "int", false, true, false, none, none, none, none⟩,
    ⟨"b", "integer", "int", false, false, false, none, none, none, none⟩,
    ⟨"c", "integer", "int", false, false, false, none, none, none, none⟩],
   ⟨none, none, none, none, none⟩, ⟨none, none, none⟩⟩

/-! ## Load driver (`python/etl/load.py`, `load_or_update_redshift`) -/

/-- The slice of an association of table files that drives the control flow of
`load_or_update_redshift`: the target table and the design source kind. -/
structure AssocTableFiles where
  table_name : String
  source_name : String
deriving DecidableEq

/-- Observable actions of the load driver.  Each non-connection event stands
for one helper call executing SQL against the warehouse; in dry-run mode the
helpers only log, so no SQL event is emitted. -/
inductive LoadEvent where
  | openConn (autocommit : Bool)
  | closeConn
  | createView (table : String)
  | createTable (table : String)
  | ctasLoad (table : String)
  | copyData (table : String)
  | analyzeTable (table : String)
  | grantAccess (table : String)
  | vacuumTable (table : String)
deriving DecidableEq

/-- The SQL actions taken for one relation inside the `with conn` block of
`load_or_update_redshift`: VIEW gets `create_view`; CTAS gets `create_table`,
`create_temp_table_as_and_copy` and `analyze`; anything else gets
`create_table`, `copy_data` and `analyze`; all kinds get `grant_access`. -/
def relationLoadEvents (dry_run : Bool) (tf : AssocTableFiles) :
    List LoadEvent :=
  if dry_run then []
  else if tf.source_name = "VIEW" then
    [.createView tf.table_name, .grantAccess tf.table_name]
  else if tf.source_name = "CTAS" then
    [.createTable tf.table_name, .ctasLoad tf.table_name,
     .analyzeTable tf.table_name, .grantAccess tf.table_name]
  else
    [.createTable tf.table_name, .copyData tf.table_name,
     .analyzeTable tf.table_name, .grantAccess tf.table_name]

/-- The `vacuumable` list accumulated by `load_or_update_redshift`: every
non-view relation, in processing order. -/
def vacuumableOf (files : List AssocTableFiles) : List String :=
  (files.filter (fun tf => !(tf.source_name == "VIEW"))).map (·.table_name)

/-- Event trace of `load_or_update_redshift(...)` over the flattened list of
table files: nothing if no files were found; otherwise one main connection
processing every relation, and, only when `drop` is not set, a second
autocommit connection opened after the first closes, on which the batched
vacuum runs. -/
def load_or_update_redshift_trace (files : List AssocTableFiles)
    (drop dry_run : Bool) : List LoadEvent :=
  if files.isEmpty then []
  else
    ([LoadEvent.openConn false]
        ++ files.flatMap (relationLoadEvents dry_run) ++ [LoadEvent.closeConn])
      ++ (if drop then []
          else
            [LoadEvent.openConn true]
              ++ (if dry_run then []
                  else (vacuumableOf files).map LoadEvent.vacuumTable)
              ++ [LoadEvent.closeConn])

/-- Whether an event is a `VACUUM` statement. -/
def isVacuumEvent : LoadEvent → Bool
  | .vacuumTable _ => true
  | _ => false

end Etl

namespace Etl

/-! ## Helper lemmas about the resolver -/

theorem narrowDependencies_identifier (k : List String) (d : RelationDescription) :
    (narrowDependencies k d).identifier = d.identifier := by
  unfold narrowDependencies
  dsimp only
  split <;> rfl

theorem narrowDependencies_order (k : List String) (d : RelationDescription) :
    (narrowDependencies k d).order = d.order := by
  unfold narrowDependencies
  dsimp only
  split <;> rfl

theorem narrowDependencies_deps_known (k : List String) (d : RelationDescription) :
    ∀ s ∈ (narrowDependencies k d).dependencies, k.contains s = true := by
  unfold narrowDependencies
  dsimp only
  split
  · intro s hs
    rename_i hempty
    rw [List.isEmpty_iff, List.filter_eq_nil_iff] at hempty
    have := hempty s hs
    simpa using this
  · intro s hs
    simp only [List.mem_filter] at hs
    exact hs.2

theorem narrowDependencies_eq_self (k : List String) (d : RelationDescription)
    (h : ∀ s ∈ d.dependencies, k.contains s = true) :
    narrowDependencies k d = d := by
  unfold narrowDependencies
  dsimp only
  rw [if_pos]
  rw [List.isEmpty_iff, List.filter_eq_nil_iff]
  intro a ha
  simpa using h a ha

theorem narrowDependencies_idem (k : List String) (d : RelationDescription) :
    narrowDependencies k (narrowDependencies k d) = narrowDependencies k d :=
  narrowDependencies_eq_self k _ (narrowDependencies_deps_known k d)

theorem known_tables_map_narrow (descs : List RelationDescription)
    (k : List String) :
    known_tables (descs.map (narrowDependencies k)) = known_tables descs := by
  unfold known_tables
  rw [List.map_map]
  exact List.map_congr_left (fun d _ => narrowDependencies_identifier k d)

theorem initState_map_narrow (descs : List RelationDescription) :
    initState (descs.map (narrowDependencies (known_tables descs)))
      = initState descs := by
  unfold initState
  rw [known_tables_map_narrow, List.map_map, List.length_map]
  have hmaps :
      descs.map (narrowDependencies (known_tables descs) ∘
          narrowDependencies (known_tables descs))
        = descs.map (narrowDependencies (known_tables descs)) :=
    List.map_congr_left (fun d _ => narrowDependencies_idem _ d)
  rw [hmaps]

theorem nr_tables_map_narrow (descs : List RelationDescription) :
    nr_tables (descs.map (narrowDependencies (known_tables descs)))
      = nr_tables descs := by
  unfold nr_tables
  rw [known_tables_map_narrow]

/-- List update with the element already present is the identity. -/
theorem set_getD_self {α : Type} (l : List α) (i : Nat) (d : α)
    (h : i < l.length) : l.set i (l.getD i d) = l := by
  induction l generalizing i with
  | nil => simp at h
  | cons x xs ih =>
    cases i with
    | zero => simp [List.getD]
    | succ j =>
      simp only [List.length_cons, Nat.succ_lt_succ_iff] at h
      simp only [List.set, List.getD_cons_succ]
      rw [ih j h]

/-- The loop body only ever rewrites the `order` field of the popped
description: every per-field projection of the description list other than
`order` is unchanged. -/
theorem stepBody_map_proj {β : Type} (g : RelationDescription → β)
    (hg : ∀ d o, g { d with order := o } = g d)
    (st : ResolverState) (m t i : Nat) (rest : List QItem) :
    (stepBody st m t i rest).descriptions.map g = st.descriptions.map g := by
  unfold stepBody
  dsimp only
  by_cases hlt : i < st.descriptions.length
  · have key : ∀ o : Option Nat,
        (st.descriptions.set i { st.descriptions.getD i default with order := o }).map g
          = st.descriptions.map g := by
      intro o
      rw [List.map_set, hg]
      have hx : g (st.descriptions.getD i default)
          = (st.descriptions.map g).getD i (g default) := by
        simp [List.getD_eq_getElem?_getD, List.getElem?_map,
          List.getElem?_eq_getElem hlt]
      rw [hx, set_getD_self]
      simpa using hlt
    split
    · exact key _
    split
    · exact key _
    split <;> rfl
  · have hge : st.descriptions.length ≤ i := Nat.le_of_not_lt hlt
    split
    · rw [List.set_eq_of_length_le hge]
    split
    · rw [List.set_eq_of_length_le hge]
    split <;> rfl

theorem stepBody_map_identifier (st : ResolverState) (m t i : Nat)
    (rest : List QItem) :
    (stepBody st m t i rest).descriptions.map (·.identifier)
      = st.descriptions.map (·.identifier) :=
  stepBody_map_proj (fun r => r.identifier) (fun _ _ => rfl) st m t i rest

theorem stepBody_map_dependencies (st : ResolverState) (m t i : Nat)
    (rest : List QItem) :
    (stepBody st m t i rest).descriptions.map (·.dependencies)
      = st.descriptions.map (·.dependencies) :=
  stepBody_map_proj (fun r => r.dependencies) (fun _ _ => rfl) st m t i rest

theorem resolveLoop_ok_shape (n : Nat) :
    ∀ (fuel : Nat) (st : ResolverState) (s f : List RelationDescription),
      resolveLoop n fuel st = .ok s f →
      f.map (·.identifier) = st.descriptions.map (·.identifier)
      ∧ f.map (·.dependencies) = st.descriptions.map (·.dependencies)
      ∧ s = sortByOrder f := by
  intro fuel
  induction fuel with
  | zero => intro st s f h; simp [resolveLoop] at h
  | succ k ih =>
    intro st s f h
    rw [resolveLoop] at h
    rcases hq : popMin st.queue with _ | ⟨⟨⟨m, t, i⟩, rest⟩⟩
    · simp only [hq] at h
      injection h with h1 h2
      subst h2
      exact ⟨rfl, rfl, h1.symm⟩
    · simp only [hq] at h
      by_cases hm : 2*n < m
      · rw [if_pos hm] at h; cases h
      · rw [if_neg hm] at h
        obtain ⟨h1, h2, h3⟩ := ih (stepBody st m t i rest) s f h
        refine ⟨?_, ?_, h3⟩
        · rw [h1, stepBody_map_identifier]
        · rw [h2, stepBody_map_dependencies]

/-- Two description lists agreeing on all three fields are equal. -/
theorem RelationDescription.list_ext :
    ∀ (l1 l2 : List RelationDescription),
      l1.map (·.identifier) = l2.map (·.identifier) →
      l1.map (·.dependencies) = l2.map (·.dependencies) →
      l1.map (·.order) = l2.map (·.order) →
      l1 = l2 := by
  intro l1
  induction l1 with
  | nil => intro l2 h1 _ _; cases l2 <;> simp_all
  | cons x xs ih =>
    intro l2 h1 h2 h3
    cases l2 with
    | nil => simp at h1
    | cons y ys =>
      simp only [List.map_cons, List.cons.injEq] at h1 h2 h3
      have hxy : x = y := by
        cases x; cases y
        simp_all
      rw [hxy, ih ys h1.2 h2.2 h3.2]

end Etl

namespace Etl

/-! ## Claim C4: unknown dependencies are narrowed away, never fatal -/

/-- C4: a dependency on an identifier absent from the batch is removed by the
narrowing step and the resolver behaves exactly as if those dependencies were
never declared: resolving a batch equals resolving the batch with every
unknown dependency already dropped.  Concretely, a relation all of whose
dependencies are unknown resolves successfully with order 1 (the source also
emits a warning, which is outside this embedding). -/
theorem order_by_dependencies_unknown_dependencies_tolerated :
    (∀ (descs : List RelationDescription) (fuel : Nat),
      order_by_dependencies
          (descs.map (narrowDependencies (known_tables descs))) fuel
        = order_by_dependencies descs fuel)
    ∧ order_by_dependencies [⟨"x.x", ["ghost.one", "ghost.two"], none⟩] 20
        = .ok [⟨"x.x", [], some 1⟩] [⟨"x.x", [], some 1⟩] := by
  constructor
  · intro descs fuel
    unfold order_by_dependencies
    rw [initState_map_narrow, nr_tables_map_narrow]
  · decide

/-! ## Claim C3: re-running the resolver on as-left descriptors -/

/-- C3 counterexample: on the acyclic two-relation batch `c3batch`, the first
run assigns orders `[2, 1]`, but a second run on the descriptors exactly as
the first run left them (orders still set) assigns `[2, 3]` — the relation
`b.b` receives order 3 instead of 1, so the claimed stability fails. -/
theorem order_by_dependencies_rerun_counterexample :
    ((order_by_dependencies c3batch 20).final?.map (fun f => f.map (·.order))
        = some [some 2, some 1])
    ∧ ((order_by_dependencies c3batch 20).final?.bind
          (fun f => (order_by_dependencies f 20).final?.map
            (fun g => g.map (·.order)))
        = some [some 2, some 3])
    ∧ (some [some 2, some 1] : Option (List (Option Nat)))
        ≠ some [some 2, some 3] := by
  refine ⟨by decide, by decide, by decide⟩

/-- C3 amended: resolving a fresh batch and then re-resolving the descriptors
as the first run left them, after resetting their `order` fields to
unassigned, reproduces the first result exactly.  (As stated, without the
reset, the claim is false: the stale orders feed the `all(others)` branch.) -/
theorem order_by_dependencies_stable_after_reset
    (descs : List RelationDescription) (fuel : Nat)
    (s f : List RelationDescription)
    (hfresh : ∀ r ∈ descs, r.order = none)
    (hrun : order_by_dependencies descs fuel = .ok s f) :
    order_by_dependencies (resetOrders f) fuel = .ok s f := by
  obtain ⟨hid, hdep, _⟩ :=
    resolveLoop_ok_shape (nr_tables descs) fuel (initState descs) s f hrun
  have hinit : (initState descs).descriptions
      = descs.map (narrowDependencies (known_tables descs)) := rfl
  have hid' : f.map (·.identifier) = descs.map (·.identifier) := by
    rw [hid, hinit, List.map_map]
    exact List.map_congr_left (fun d _ => narrowDependencies_identifier _ d)
  have hlen : f.length = descs.length := by
    have := congrArg List.length hid'
    simpa using this
  have hconst : ∀ (l : List RelationDescription),
      l.map (fun _ => (none : Option Nat)) = List.replicate l.length none := by
    intro l; induction l with
    | nil => rfl
    | cons x xs ih => simp [List.replicate, ih]
  -- every dependency left on a final descriptor is a known identifier
  have hfknown : ∀ d ∈ f, ∀ u ∈ d.dependencies,
      (known_tables descs).contains u = true := by
    intro d hd u hu
    have hmem : d.dependencies ∈
        (descs.map (narrowDependencies (known_tables descs))).map (·.dependencies) := by
      rw [← hinit, ← hdep]
      exact List.mem_map_of_mem _ hd
    rw [List.map_map] at hmem
    obtain ⟨d0, _, hd0⟩ := List.mem_map.1 hmem
    apply narrowDependencies_deps_known (known_tables descs) d0
    rw [show (narrowDependencies (known_tables descs) d0).dependencies
        = d.dependencies from hd0]
    exact hu
  have hknown : known_tables (resetOrders f) = known_tables descs := by
    unfold known_tables resetOrders
    rw [List.map_map]
    calc f.map (fun d => ({ d with order := none } : RelationDescription).identifier)
        = f.map (·.identifier) := List.map_congr_left (fun d _ => rfl)
      _ = descs.map (·.identifier) := hid'
  have hdescs : (resetOrders f).map
        (narrowDependencies (known_tables (resetOrders f)))
      = descs.map (narrowDependencies (known_tables descs)) := by
    rw [hknown]
    apply RelationDescription.list_ext
    · rw [List.map_map, List.map_map]
      calc (resetOrders f).map
            (fun d => (narrowDependencies (known_tables descs) d).identifier)
          = (resetOrders f).map (·.identifier) :=
            List.map_congr_left (fun d _ => narrowDependencies_identifier _ d)
        _ = f.map (·.identifier) := by
            unfold resetOrders
            rw [List.map_map]
            exact List.map_congr_left (fun d _ => rfl)
        _ = descs.map (·.identifier) := hid'
        _ = descs.map (fun d => (narrowDependencies (known_tables descs) d).identifier) :=
            (List.map_congr_left (fun d _ => narrowDependencies_identifier _ d)).symm
    · rw [List.map_map, List.map_map]
      simp only [Function.comp_def]
      have hfr : (resetOrders f).map
            (fun d => (narrowDependencies (known_tables descs) d).dependencies)
          = f.map (fun d => (narrowDependencies (known_tables descs) d).dependencies) := by
        unfold resetOrders
        rw [List.map_map]
        apply List.map_congr_left
        intro d hd
        rw [Function.comp_apply]
        rw [narrowDependencies_eq_self (known_tables descs)
              ({ d with order := none }) (fun u hu => hfknown d hd u hu),
          narrowDependencies_eq_self (known_tables descs) d
              (fun u hu => hfknown d hd u hu)]
      rw [hfr]
      have hfd : f.map (fun d => (narrowDependencies (known_tables descs) d).dependencies)
          = f.map (·.dependencies) := by
        apply List.map_congr_left
        intro d hd
        rw [narrowDependencies_eq_self _ _ (fun u hu => hfknown d hd u hu)]
      rw [hfd, hdep, hinit, List.map_map]
      simp only [Function.comp_def]
    · rw [List.map_map, List.map_map]
      simp only [Function.comp_def]
      have h1 : (resetOrders f).map
            (fun d => (narrowDependencies (known_tables descs) d).order)
          = f.map (fun _ => (none : Option Nat)) := by
        unfold resetOrders
        rw [List.map_map]
        apply List.map_congr_left
        intro d _
        rw [Function.comp_apply, narrowDependencies_order]
      have h2 : descs.map (fun d => (narrowDependencies (known_tables descs) d).order)
          = descs.map (fun _ => (none : Option Nat)) := by
        apply List.map_congr_left
        intro d hd
        rw [narrowDependencies_order]
        exact hfresh d hd
      rw [h1, h2, hconst, hconst, hlen]
  have hql : (resetOrders f).length = descs.length := by
    unfold resetOrders
    rw [List.length_map, hlen]
  have hstate : initState (resetOrders f) = initState descs := by
    unfold initState
    rw [hdescs, hql]
  have hn : nr_tables (resetOrders f) = nr_tables descs := by
    unfold nr_tables
    rw [hknown]
  unfold order_by_dependencies
  rw [hstate, hn]
  exact hrun

/-- Witness for the amended C3 on the concrete batch `c3batch`. -/
theorem order_by_dependencies_stable_after_reset_witness :
    order_by_dependencies
        (resetOrders [⟨"a.a", ["b.b"], some 2⟩, ⟨"b.b", [], some 1⟩]) 20
      = .ok [⟨"b.b", [], some 1⟩, ⟨"a.a", ["b.b"], some 2⟩]
            [⟨"a.a", ["b.b"], some 2⟩, ⟨"b.b", [], some 1⟩] :=
  order_by_dependencies_stable_after_reset c3batch 20
    [⟨"b.b", [], some 1⟩, ⟨"a.a", ["b.b"], some 2⟩]
    [⟨"a.a", ["b.b"], some 2⟩, ⟨"b.b", [], some 1⟩]
    (by decide) (by decide)

/-! ## Claim C5: assemble_table_ddl is not side-effect-free -/

/-- Mapping a function that fixes every member is the identity. -/
theorem list_map_id_of {α : Type} (l : List α) (g : α → α)
    (h : ∀ a ∈ l, g a = a) : l.map g = l := by
  induction l with
  | nil => rfl
  | cons x xs ih => simp_all

theorem updateColumn_skipped (it : Bool) (c : Column) :
    (updateColumn it c).skipped = c.skipped := by
  unfold updateColumn
  split
  · rfl
  · split <;> rfl

theorem formatColumnSpec_updateColumn (ui it : Bool) (c : Column) :
    formatColumnSpec ui it (updateColumn it c) = formatColumnSpec ui it c := by
  unfold updateColumn
  split
  · rfl
  · split <;> rfl

/-- C5 counterexample: on a design whose column carries a `references` entry,
`assemble_table_ddl` hands back a design distinct from its input (it wrote the
derived `foreign_table` / `foreign_column` keys into the column), so the
builder is not side-effect-free on the design value. -/
theorem assemble_table_ddl_mutates_references_counterexample :
    (assemble_table_ddl c5design "\"s\".\"t\"" false false).2 ≠ c5design := by
  decide

/-- C5 amended: `assemble_table_ddl` leaves every part of the design unchanged
except that it writes the derived `foreign_table` / `foreign_column` keys into
the non-skipped columns carrying a `references` entry (only when not building
the temporary variant); in particular a design whose columns carry no
`references` entry is returned unchanged. -/
theorem assemble_table_ddl_mutation_only_foreign_keys :
    ∀ (td : TableDesign) (tn : String) (ui it : Bool),
      ((assemble_table_ddl td tn ui it).2.columns.map eraseForeignKeys
          = td.columns.map eraseForeignKeys)
      ∧ (assemble_table_ddl td tn ui it).2.name = td.name
      ∧ (assemble_table_ddl td tn ui it).2.source_name = td.source_name
      ∧ (assemble_table_ddl td tn ui it).2.constraints = td.constraints
      ∧ (assemble_table_ddl td tn ui it).2.attributes = td.attributes
      ∧ ((∀ c ∈ td.columns, c.references = none) →
          (assemble_table_ddl td tn ui it).2 = td) := by
  intro td tn ui it
  refine ⟨?_, rfl, rfl, rfl, rfl, ?_⟩
  · show (td.columns.map (updateColumn it)).map eraseForeignKeys
        = td.columns.map eraseForeignKeys
    rw [List.map_map]
    apply List.map_congr_left
    intro c _
    rw [Function.comp_apply]
    unfold updateColumn eraseForeignKeys
    split
    · rfl
    · split <;> rfl
  · intro href
    show { td with columns := td.columns.map (updateColumn it) } = td
    have hupd : td.columns.map (updateColumn it) = td.columns := by
      apply list_map_id_of
      intro c hc
      unfold updateColumn
      rw [href c hc]
      split <;> rfl
    rw [hupd]

/-- Witness for the amended C5: a design with no `references` entries is
returned untouched. -/
theorem assemble_table_ddl_mutation_only_foreign_keys_witness :
    (assemble_table_ddl
        ⟨"t", "CTAS",
          [⟨"a", "integer", "int", false, false, false, none, none, none, none⟩],
          ⟨none, none, none, none, none⟩, ⟨none, none, none⟩⟩
        "\"s\".\"t\"" false false).2
      = ⟨"t", "CTAS",
          [⟨"a", "integer", "int", false, false, false, none, none, none, none⟩],
          ⟨none, none, none, none, none⟩, ⟨none, none, none⟩⟩ :=
  (assemble_table_ddl_mutation_only_foreign_keys _ "\"s\".\"t\"" false false).2.2.2.2.2
    (by decide)

/-! ## Claim C6: DDL determinism and the concrete CREATE TABLE fragments -/

/-- C6: building the table DDL a second time, on the design exactly as the
first build left it, yields byte-identical text; and the CREATE TABLE built
for the concrete design (identity integer `id`, `numeric(10,2)` `amount`,
primary key `id`) contains both required fragments. -/
theorem assemble_table_ddl_deterministic_and_fragments :
    (∀ (td : TableDesign) (tn : String) (ui it : Bool),
      (assemble_table_ddl (assemble_table_ddl td tn ui it).2 tn ui it).1
        = (assemble_table_ddl td tn ui it).1)
    ∧ pyIn "\"id\" integer IDENTITY(1, 1) NOT NULL"
        (assemble_table_ddl c6design "\"s\".\"t\"" true false).1 = true
    ∧ pyIn "PRIMARY KEY ( \"id\" )"
        (assemble_table_ddl c6design "\"s\".\"t\"" true false).1 = true := by
  refine ⟨?_, by decide, by decide⟩
  intro td tn ui it
  show (assemble_table_ddl { td with columns := td.columns.map (updateColumn it) }
        tn ui it).1
      = (assemble_table_ddl td tn ui it).1
  unfold assemble_table_ddl
  dsimp only
  have hcols : ((td.columns.map (updateColumn it)).filter (fun c => !c.skipped)).map
        (formatColumnSpec ui it)
      = (td.columns.filter (fun c => !c.skipped)).map (formatColumnSpec ui it) := by
    rw [List.filter_map, List.map_map]
    have h1 : td.columns.filter ((fun c => !c.skipped) ∘ updateColumn it)
        = td.columns.filter (fun c => !c.skipped) := by
      apply List.filter_congr
      intro c _
      rw [Function.comp_apply, updateColumn_skipped]
    rw [h1]
    apply List.map_congr_left
    intro c _
    rw [Function.comp_apply, formatColumnSpec_updateColumn]
  rw [hcols]
  have hcon : build_constraints
      { td with columns := td.columns.map (updateColumn it) } it
      = build_constraints td it := rfl
  have hattr : build_attributes
      { td with columns := td.columns.map (updateColumn it) } it
      = build_attributes td it := rfl
  rw [hcon, hattr]

/-! ## Claim C7: skipped columns and generated column lists -/

/-- C7 counterexample: `create_view` builds its column list from every design
column, so the skipped column `borked_column` appears both in the view column
list and in the generated view DDL text. -/
theorem create_view_includes_skipped_counterexample :
    c7design.columns.map (fun c => (c.name, c.skipped))
        = [("keep_me", false), ("borked_column", true)]
    ∧ viewColumnNames c7design = ["keep_me", "borked_column"]
    ∧ "borked_column" ∈ viewColumnNames c7design
    ∧ pyIn "borked_column" (create_view_ddl c7design "\"s\".\"v\"" "SELECT 1")
        = true := by
  refine ⟨by decide, by decide, by decide, by decide⟩

/-- C7 amended: a skipped column is excluded from the column lists of the
table DDL, the CTAS staging DDL and the insert/swap DML, but the view DDL
column list contains every design column name, skipped ones included. -/
theorem skipped_columns_excluded_except_view :
    ∀ (td : TableDesign), (td.columns.map (·.name)).Nodup →
      ∀ c ∈ td.columns, c.skipped = true →
        c.name ∉ tableDdlColumnNames td
        ∧ c.name ∉ ctasColumnNames td
        ∧ c.name ∉ insertColumnNames td
        ∧ c.name ∈ viewColumnNames td := by
  intro td hnd c hc hcs
  have hinj := List.inj_on_of_nodup_map hnd
  have habsent : ∀ (p : Column → Bool), (∀ x : Column, p x = true → x.skipped = false) →
      c.name ∉ (td.columns.filter p).map (·.name) := by
    intro p hp hmem
    obtain ⟨c', hc', hname⟩ := List.mem_map.1 hmem
    obtain ⟨hc'mem, hc'p⟩ := List.mem_filter.1 hc'
    have : c' = c := hinj hc'mem hc hname
    rw [this] at hc'p
    rw [hp c hc'p] at hcs
    cases hcs
  refine ⟨?_, ?_, ?_, List.mem_map_of_mem _ hc⟩
  · exact habsent _ (fun x hx => by simpa using hx)
  · refine habsent _ (fun x hx => ?_)
    simp only [Bool.not_eq_true', Bool.or_eq_false_iff] at hx
    exact hx.2
  · exact habsent _ (fun x hx => by simpa using hx)

/-- Witness for the amended C7 at the concrete design `c7design`. -/
theorem skipped_columns_excluded_except_view_witness :
    "borked_column" ∉ tableDdlColumnNames c7design
    ∧ "borked_column" ∉ ctasColumnNames c7design
    ∧ "borked_column" ∉ insertColumnNames c7design
    ∧ "borked_column" ∈ viewColumnNames c7design :=
  skipped_columns_excluded_except_view c7design (by decide)
    ⟨"borked_column", "integer", "int", false, false, true, none, none, none, none⟩
    (by decide) rfl

/-! ## Claim C8: the literal key-0 row of the swap DML -/

set_option maxRecDepth 8192 in
/-- C8 counterexample: for the concrete design (identity `id`, non-null
timestamp `created_at`, non-null string `label`) the literal row of the swap
DML carries the fixed sentinel string `N/A` for the non-null string column —
not the empty-string sentinel the claim states — and that value appears in
the assembled DML text. -/
theorem na_row_string_sentinel_counterexample :
    na_values_row c8design
      = ["0", sq ++ "0000-01-01 00:00:00" ++ sq, sq ++ "N/A" ++ sq]
    ∧ sq ++ "N/A" ++ sq ≠ sq ++ sq
    ∧ pyIn (sq ++ "N/A" ++ sq)
        (assemble_insert_into_dml c8design "\"s\".\"t\"" "\"staging$t\"" true)
        = true := by
  refine ⟨by decide, by decide, by decide⟩

/-- C8 amended: with `add_row_for_key_0` the swap DML is the `UNION ALL`
template whose literal row holds, per non-skipped column: `0` for an identity
column, `NULL` cast to the SQL type for a nullable column, the fixed sentinel
past-date for a non-null timestamp column (never `NULL` there), the fixed
sentinel string `N/A` for a non-null string column, `FALSE` for a boolean
column, and `0` otherwise. -/
theorem na_row_placeholders :
    ∀ (td : TableDesign) (tn tmp : String),
      (∃ c ∈ td.columns, c.identity = true) →
      (assemble_insert_into_dml td tn tmp true
        = pyReplaceChar '\n' "\n    "
          ("INSERT INTO " ++ tn
            ++ "\n                    (SELECT"
            ++ "\n                         "
            ++ format_column_list
                ((td.columns.filter (fun c => !c.skipped)).map (·.name))
            ++ "\n                       FROM " ++ tmp
            ++ "\n                      UNION ALL"
            ++ "\n                     SELECT"
            ++ "\n                         "
            ++ String.intercalate ", "
                ((td.columns.filter (fun c => !c.skipped)).map
                  (fun c =>
                    if c.identity then "0"
                    else if !c.not_null then "NULL::" ++ c.sql_type
                    else if pyIn "timestamp" c.sql_type then
                      sq ++ "0000-01-01 00:00:00" ++ sq
                    else if pyIn "string" c.type then sq ++ "N/A" ++ sq
                    else if pyIn "boolean" c.type then "FALSE"
                    else "0"))
            ++ ")"))
      ∧ (∀ c ∈ td.columns, c.identity = false → c.not_null = true →
          pyIn "timestamp" c.sql_type = true →
          naValue c = sq ++ "0000-01-01 00:00:00" ++ sq
          ∧ naValue c ≠ "NULL::" ++ c.sql_type) := by
  intro td tn tmp _
  constructor
  · rfl
  · intro c _ h1 h2 h3
    have hval : naValue c = sq ++ "0000-01-01 00:00:00" ++ sq := by
      unfold naValue
      rw [h1, h2, h3]
      rfl
    refine ⟨hval, ?_⟩
    rw [hval]
    intro heq
    have hdata := congrArg String.data heq
    rw [String.data_append, String.data_append, String.data_append] at hdata
    have hsq : sq.data = [Char.ofNat 39] := rfl
    have hnu : ("NULL::" : String).data = ['N', 'U', 'L', 'L', ':', ':'] := rfl
    rw [hsq, hnu] at hdata
    rw [List.cons_append] at hdata
    injection hdata with hhead _
    exact absurd hhead (by decide)

/-- Witness for the amended C8 at the concrete design `c8design`. -/
theorem na_row_placeholders_witness :
    naValue ⟨"created_at", "timestamp without time zone", "timestamp", true,
        false, false, none, none, none, none⟩
      = sq ++ "0000-01-01 00:00:00" ++ sq :=
  ((na_row_placeholders c8design "\"s\".\"t\"" "\"staging$t\""
      ⟨⟨"id", "integer", "int", true, true, false, none, none, none, none⟩,
        by decide, rfl⟩).2
    ⟨"created_at", "timestamp without time zone", "timestamp", true,
        false, false, none, none, none, none⟩
    (by decide) rfl rfl (by decide)).1

/-! ## Claim C9: the validator column diff with identity reinsertion -/

/-- C9: for observed columns `[b, c]` against design columns
`[a (identity), b, c]` the column check reports no mismatch, and in general
`_check_columns` reports no mismatch exactly when the observed list with the
declared identity columns reinserted at their declared positions equals the
declared non-skipped column names. -/
theorem check_columns_reinsertion :
    (check_columns_mismatch ["b", "c"] c9design = false)
    ∧ ∀ (observed : List String) (td : TableDesign),
        (check_columns_mismatch observed td = false
          ↔ reinsertIdentityColumns td observed = expectedColumns td) := by
  refine ⟨by decide, ?_⟩
  intro observed td
  unfold check_columns_mismatch
  simp

/-! ## Claim C10: vacuum and the second autocommit connection -/

/-- C10 counterexample: in a non-dry-run load with the drop flag set, the
upstream relation `s.t` is populated (`COPY` runs) but the run ends after the
main connection closes — no second connection is opened and no `VACUUM` is
ever issued, contradicting the claim that every populated non-view relation
is vacuumed in every non-dry-run load. -/
theorem vacuum_skipped_when_drop_counterexample :
    load_or_update_redshift_trace [⟨"s.t", "www"⟩] true false
      = [.openConn false, .createTable "s.t", .copyData "s.t",
         .analyzeTable "s.t", .grantAccess "s.t", .closeConn]
    ∧ (load_or_update_redshift_trace [⟨"s.t", "www"⟩] true false).any
        isVacuumEvent = false
    ∧ LoadEvent.copyData "s.t" ∈ load_or_update_redshift_trace [⟨"s.t", "www"⟩]
        true false := by
  refine ⟨by decide, by decide, by decide⟩

/-- C10 amended: in every non-dry-run load *without* the drop flag, the trace
is the main connection (which performs every per-relation step and never a
vacuum) followed, after its close, by a second autocommit connection carrying
exactly the batched vacuums, one for every populated non-view relation; with
the drop flag set the whole vacuum phase is skipped. -/
theorem vacuum_on_second_connection :
    ∀ (files : List AssocTableFiles), files ≠ [] →
      (load_or_update_redshift_trace files false false
        = ([LoadEvent.openConn false]
            ++ files.flatMap (relationLoadEvents false) ++ [LoadEvent.closeConn])
          ++ ([LoadEvent.openConn true]
            ++ (vacuumableOf files).map LoadEvent.vacuumTable
            ++ [LoadEvent.closeConn]))
      ∧ (∀ e ∈ files.flatMap (relationLoadEvents false), isVacuumEvent e = false)
      ∧ (∀ tf ∈ files, tf.source_name ≠ "VIEW" →
          LoadEvent.vacuumTable tf.table_name
            ∈ (vacuumableOf files).map LoadEvent.vacuumTable) := by
  intro files hne
  refine ⟨?_, ?_, ?_⟩
  · have h0 : ¬(files.isEmpty = true) := fun h => hne (List.isEmpty_iff.1 h)
    rw [load_or_update_redshift_trace, if_neg h0]
    simp
  · intro e he
    rw [List.mem_flatMap] at he
    obtain ⟨tf, _, he⟩ := he
    unfold relationLoadEvents at he
    simp only [Bool.false_eq_true, if_false] at he
    split at he
    · simp only [List.mem_cons, List.not_mem_nil, or_false] at he
      rcases he with rfl | rfl <;> rfl
    · split at he
      · simp only [List.mem_cons, List.not_mem_nil, or_false] at he
        rcases he with rfl | rfl | rfl | rfl <;> rfl
      · simp only [List.mem_cons, List.not_mem_nil, or_false] at he
        rcases he with rfl | rfl | rfl | rfl <;> rfl
  · intro tf htf hview
    apply List.mem_map_of_mem
    apply List.mem_map_of_mem
    exact List.mem_filter.2 ⟨htf, by simp [hview]⟩

/-- Witness for the amended C10 at a one-relation upstream batch. -/
theorem vacuum_on_second_connection_witness :
    load_or_update_redshift_trace [⟨"s.t", "www"⟩] false false
      = [.openConn false, .createTable "s.t", .copyData "s.t",
         .analyzeTable "s.t", .grantAccess "s.t", .closeConn,
         .openConn true, .vacuumTable "s.t", .closeConn] :=
  ((vacuum_on_second_connection [⟨"s.t", "www"⟩] (by decide)).1).trans (by decide)

end Etl

namespace Etl

/-! ## Queue lemmas -/

theorem popMin_eq_none_iff (l : List QItem) : popMin l = none ↔ l = [] := by
  cases l with
  | nil => simp [popMin]
  | cons x xs =>
    simp only [popMin]
    constructor
    · intro h
      rcases hx : popMin xs with _ | ⟨⟨m, rest⟩⟩ <;> rw [hx] at h
      · cases h
      · dsimp only at h
        split at h <;> cases h
    · intro h; cases h

theorem popMin_perm (l : List QItem) (x : QItem) (rest : List QItem)
    (h : popMin l = some (x, rest)) : l.Perm (x :: rest) := by
  induction l generalizing x rest with
  | nil => cases h
  | cons y ys ih =>
    rw [popMin] at h
    rcases hy : popMin ys with _ | ⟨⟨m, r⟩⟩ <;> rw [hy] at h
    · have : ys = [] := (popMin_eq_none_iff ys).1 hy
      subst this
      injection h with h1
      injection h1 with h1 h2
      subst h1; subst h2
      exact List.Perm.refl _
    · dsimp only at h
      split at h
      · injection h with h1
        injection h1 with h1 h2
        subst h1; subst h2
        exact List.Perm.refl _
      · injection h with h1
        injection h1 with h1 h2
        subst h1; subst h2
        exact List.Perm.trans (List.Perm.cons y (ih m r hy)) (List.Perm.swap m y r)

theorem itemLE_priority (a b : QItem) (h : itemLE a b = true) : a.1 ≤ b.1 := by
  unfold itemLE at h
  rw [decide_eq_true_iff] at h
  rcases h with h | ⟨h, _⟩
  · exact Nat.le_of_lt h
  · exact Nat.le_of_eq h

theorem not_itemLE_priority (a b : QItem) (h : itemLE a b = false) : b.1 ≤ a.1 := by
  unfold itemLE at h
  rw [decide_eq_false_iff_not] at h
  push_neg at h
  exact h.1

theorem popMin_min (l : List QItem) (x : QItem) (rest : List QItem)
    (h : popMin l = some (x, rest)) : ∀ y ∈ rest, x.1 ≤ y.1 := by
  induction l generalizing x rest with
  | nil => cases h
  | cons z zs ih =>
    rw [popMin] at h
    rcases hz : popMin zs with _ | ⟨⟨m, r⟩⟩ <;> rw [hz] at h
    · injection h with h1
      injection h1 with h1 h2
      subst h1; subst h2
      intro y hy; cases hy
    · dsimp only at h
      split at h
      · injection h with h1
        injection h1 with h1 h2
        subst h1; subst h2
        rename_i hle
        intro y hy
        have hperm := popMin_perm zs m r hz
        rcases List.mem_cons.1 (hperm.mem_iff.1 hy) with hm | hr
        · subst hm; exact itemLE_priority _ _ hle
        · exact Nat.le_trans (itemLE_priority _ _ hle) (ih m r hz y hr)
      · injection h with h1
        injection h1 with h1 h2
        subst h1; subst h2
        rename_i hle
        intro y hy
        rcases List.mem_cons.1 hy with hm | hr
        · subst hm
          exact not_itemLE_priority _ _ (Bool.eq_false_iff.2 hle)
        · exact ih m r hz y hr

end Etl

namespace Etl

/-! ## Lookup and maximum lemmas -/

/-- First-match characterization of `table_map[dep]`: when `dep` occurs among
the identifiers, `lookupOrder` reads the order of the first description
carrying it. -/
theorem lookupOrder_first_match (l : List RelationDescription) (dep : String)
    (hmem : dep ∈ l.map (·.identifier)) :
    ∃ j, j < l.length ∧ (l.getD j default).identifier = dep
      ∧ lookupOrder l dep = (l.getD j default).order := by
  induction l with
  | nil => simp at hmem
  | cons x xs ih =>
    by_cases hx : x.identifier = dep
    · refine ⟨0, by simp, hx, ?_⟩
      unfold lookupOrder
      rw [List.find?_cons_of_pos]
      · rfl
      · simp [hx]
    · have hmem' : dep ∈ xs.map (·.identifier) := by
        rcases List.mem_cons.1 hmem with h | h
        · exact absurd h.symm hx
        · exact h
      obtain ⟨j, hj, hid, hlook⟩ := ih hmem'
      refine ⟨j + 1, by simpa using Nat.succ_lt_succ hj, by simpa using hid, ?_⟩
      unfold lookupOrder at hlook ⊢
      rw [List.find?_cons_of_neg]
      · simpa using hlook
      · simp [hx]

/-- Under unique identifiers, `lookupOrder` at the identifier of the `j`-th
description reads exactly the `j`-th order. -/
theorem lookupOrder_getD_of_nodup (l : List RelationDescription)
    (hnd : (l.map (·.identifier)).Nodup) (j : Nat) (hj : j < l.length) :
    lookupOrder l ((l.getD j default).identifier) = (l.getD j default).order := by
  induction l generalizing j with
  | nil => simp at hj
  | cons x xs ih =>
    cases j with
    | zero =>
      unfold lookupOrder
      rw [List.find?_cons_of_pos]
      · rfl
      · simp [List.getD]
    | succ k =>
      simp only [List.length_cons, Nat.succ_lt_succ_iff] at hj
      simp only [List.map_cons, List.nodup_cons] at hnd
      have hne : x.identifier ≠ (xs.getD k default).identifier := by
        intro hcontra
        apply hnd.1
        rw [hcontra]
        exact List.mem_map_of_mem _ (by
          rw [List.getD_eq_getElem _ _ hj]
          exact List.getElem_mem hj)
      unfold lookupOrder
      rw [List.find?_cons_of_neg]
      · exact ih hnd.2 k hj
      · simpa using fun hcontra => hne hcontra
    
/-- If a lookup returns a value, that value is the order of some member. -/
theorem lookupOrder_some_mem (l : List RelationDescription) (dep : String)
    (o : Nat) (h : lookupOrder l dep = some o) :
    ∃ r ∈ l, r.order = some o := by
  unfold lookupOrder at h
  rcases hf : l.find? (fun r => r.identifier == dep) with _ | r <;> rw [hf] at h
  · cases h
  · exact ⟨r, List.mem_of_find?_eq_some hf, h⟩

/-- Setting an unordered entry to an ordered copy of itself preserves every
lookup that already returned a value. -/
theorem lookupOrder_set_preserve (l : List RelationDescription) (i : Nat)
    (c : RelationDescription)
    (hid : c.identifier = (l.getD i default).identifier)
    (hnone : (l.getD i default).order = none)
    (dep : String) (o' : Nat) (h : lookupOrder l dep = some o') :
    lookupOrder (l.set i c) dep = some o' := by
  induction l generalizing i with
  | nil => simp [lookupOrder, List.find?] at h
  | cons x xs ih =>
    cases i with
    | zero =>
      simp only [List.getD_cons_zero] at hid hnone
      by_cases hx : x.identifier = dep
      · exfalso
        have hb : (x.identifier == dep) = true := beq_iff_eq.mpr hx
        simp only [lookupOrder, List.find?_cons, hb] at h
        rw [hnone] at h
        cases h
      · have hb : (x.identifier == dep) = false := beq_eq_false_iff_ne.mpr hx
        have hcb : (c.identifier == dep) = false := by
          rw [hid]; exact hb
        simp only [lookupOrder, List.find?_cons, hb] at h
        simp only [lookupOrder, List.set_cons_zero, List.find?_cons, hcb]
        exact h
    | succ k =>
      simp only [List.getD_cons_succ] at hid hnone
      by_cases hx : x.identifier = dep
      · have hb : (x.identifier == dep) = true := beq_iff_eq.mpr hx
        simp only [lookupOrder, List.find?_cons, hb] at h
        simp only [lookupOrder, List.set_cons_succ, List.find?_cons, hb]
        exact h
      · have hb : (x.identifier == dep) = false := beq_eq_false_iff_ne.mpr hx
        simp only [lookupOrder, List.find?_cons, hb] at h
        simp only [lookupOrder, List.set_cons_succ, List.find?_cons, hb]
        exact ih k hid hnone h

theorem maxSome_le (l : List (Option Nat)) (B : Nat)
    (h : ∀ o ∈ l, ∀ k, o = some k → k ≤ B) : maxSome l ≤ B := by
  unfold maxSome
  suffices haux : ∀ acc, acc ≤ B →
      l.foldl (fun acc o => match o with | some k => Nat.max acc k | none => acc) acc ≤ B by
    exact haux 0 (Nat.zero_le B)
  induction l with
  | nil => intro acc hacc; exact hacc
  | cons x xs ih =>
    intro acc hacc
    simp only [List.foldl_cons]
    cases x with
    | none =>
      exact ih (fun o ho k hk => h o (List.mem_cons_of_mem _ ho) k hk) acc hacc
    | some k =>
      refine ih (fun o ho k' hk' => h o (List.mem_cons_of_mem _ ho) k' hk') _ ?_
      exact Nat.max_le.2 ⟨hacc, h (some k) (List.mem_cons_self _ _) k rfl⟩

theorem le_maxSome (l : List (Option Nat)) (k : Nat) (h : some k ∈ l) :
    k ≤ maxSome l := by
  unfold maxSome
  suffices haux : ∀ acc, some k ∈ l →
      k ≤ l.foldl (fun acc o => match o with | some k => Nat.max acc k | none => acc) acc by
    exact haux 0 h
  have hmono : ∀ (l' : List (Option Nat)) (a b : Nat), a ≤ b →
      l'.foldl (fun acc o => match o with | some k => Nat.max acc k | none => acc) a
        ≤ l'.foldl (fun acc o => match o with | some k => Nat.max acc k | none => acc) b := by
    intro l'
    induction l' with
    | nil => intro a b hab; exact hab
    | cons x xs ih =>
      intro a b hab
      simp only [List.foldl_cons]
      cases x with
      | none => exact ih a b hab
      | some j => exact ih _ _ (max_le_max hab (Nat.le_refl j))
  have hacc_le : ∀ (l' : List (Option Nat)) (a : Nat),
      a ≤ l'.foldl (fun acc o => match o with | some k => Nat.max acc k | none => acc) a := by
    intro l'
    induction l' with
    | nil => intro a; exact Nat.le_refl a
    | cons x xs ih =>
      intro a
      simp only [List.foldl_cons]
      cases x with
      | none => exact ih a
      | some j => exact Nat.le_trans (Nat.le_max_left a j) (ih _)
  clear h
  induction l with
  | nil => intro acc hacc; cases hacc
  | cons x xs ih =>
    intro acc hmem
    simp only [List.foldl_cons]
    rcases List.mem_cons.1 hmem with hx | hx
    · subst hx
      exact Nat.le_trans (Nat.le_max_right acc k) (hacc_le xs _)
    · cases x with
      | none => exact ih _ hx
      | some j => exact ih _ hx

theorem pyTruthy_some (x : Option Nat) (h : pyTruthy x = true) :
    ∃ k, x = some k ∧ k ≠ 0 := by
  cases x with
  | none => cases h
  | some k =>
    refine ⟨k, rfl, ?_⟩
    simpa [pyTruthy] using h

theorem pyTruthy_of_some_pos (k : Nat) (hk : 1 ≤ k) :
    pyTruthy (some k) = true := by
  simp only [pyTruthy, ne_eq, bne_iff_ne]
  omega

end Etl

namespace Etl

/-! ## Invariant helper lemmas -/

theorem getD_mem_of_lt (l : List RelationDescription) (i : Nat)
    (hi : i < l.length) : l.getD i default ∈ l := by
  rw [List.getD_eq_getElem _ _ hi]
  exact List.getElem_mem hi

theorem getD_map' {β : Type} (f : RelationDescription → β)
    (l : List RelationDescription) (j : Nat) (hj : j < l.length) (dflt : β) :
    (l.map f).getD j dflt = f (l.getD j default) := by
  rw [List.getD_eq_getElem _ _ (by simpa using hj), List.getElem_map,
    List.getD_eq_getElem _ _ hj]

theorem map_set_order {β : Type} (g : RelationDescription → β)
    (hg : ∀ d o, g { d with order := o } = g d)
    (l : List RelationDescription) (i : Nat) (hi : i < l.length)
    (o : Option Nat) :
    (l.set i { l.getD i default with order := o }).map g = l.map g := by
  rw [List.map_set, hg]
  have hx : g (l.getD i default) = (l.map g).getD i (g default) := by
    simp [List.getD_eq_getElem?_getD, List.getElem?_map,
      List.getElem?_eq_getElem hi]
  rw [hx, set_getD_self]
  simpa using hi

theorem narrowDependencies_mem (k : List String) (d : RelationDescription)
    (s : String) (hs : s ∈ d.dependencies) (hk : k.contains s = true) :
    s ∈ (narrowDependencies k d).dependencies := by
  unfold narrowDependencies
  dsimp only
  split
  · exact hs
  · exact List.mem_filter.2 ⟨hs, hk⟩

theorem narrowDependencies_deps_subset (k : List String)
    (d : RelationDescription) :
    ∀ s ∈ (narrowDependencies k d).dependencies, s ∈ d.dependencies := by
  unfold narrowDependencies
  dsimp only
  split
  · exact fun s hs => hs
  · exact fun s hs => (List.mem_filter.1 hs).1

/-- Facts available at the top of a loop iteration: the popped item is a valid
queue member whose description is still unordered, and the rest of the queue
partitions the other unordered indices. -/
theorem inv_pop_facts (n : Nat) (ids : List String) (deps0 : List (List String))
    (st : ResolverState) (inv : Inv n ids deps0 st) (m t i : Nat)
    (rest : List QItem)
    (hpop : popMin st.queue = some ((m, t, i), rest)) :
    i < n ∧ t = i ∧ m ≤ 2*n+1
    ∧ (st.descriptions.getD i default).order = none
    ∧ i ∉ rest.map (fun x => x.2.2)
    ∧ (rest.map (fun x => x.2.2)).Nodup
    ∧ (∀ j, j ∈ st.queue.map (fun x => x.2.2)
        ↔ j = i ∨ j ∈ rest.map (fun x => x.2.2))
    ∧ (∀ x ∈ rest, x ∈ st.queue) := by
  have hperm := popMin_perm _ _ _ hpop
  have hmem : (m, t, i) ∈ st.queue := hperm.mem_iff.2 (List.mem_cons_self _ _)
  obtain ⟨hi, ht, hm⟩ := inv.hq _ hmem
  have hpm : (st.queue.map (fun x => x.2.2)).Perm
      (i :: rest.map (fun x => x.2.2)) := by
    have := hperm.map (fun x => x.2.2)
    simpa using this
  have hnd : (i :: rest.map (fun x => x.2.2)).Nodup := hpm.nodup inv.hqnd
  refine ⟨hi, ht, hm, ?_, ?_, ?_, ?_, ?_⟩
  · exact (inv.hun i hi).2 (hpm.mem_iff.2 (List.mem_cons_self _ _))
  · exact (List.nodup_cons.1 hnd).1
  · exact (List.nodup_cons.1 hnd).2
  · intro j
    rw [hpm.mem_iff, List.mem_cons]
  · intro x hx
    exact hperm.mem_iff.2 (List.mem_cons_of_mem _ hx)

end Etl

namespace Etl

/-- Assigning the popped description an order `latest + 1` that strictly
dominates all its dependency orders preserves the invariant. -/
theorem inv_assign (n : Nat) (ids : List String) (deps0 : List (List String))
    (st : ResolverState) (inv : Inv n ids deps0 st) (m t i : Nat)
    (rest : List QItem)
    (hpop : popMin st.queue = some ((m, t, i), rest))
    (v : Nat) (hv : v = st.latest + 1)
    (hvgt : ∀ d ∈ (st.descriptions.getD i default).dependencies,
      ∃ o', lookupOrder st.descriptions d = some o' ∧ o' < v) :
    Inv n ids deps0
      ⟨st.descriptions.set i
          { st.descriptions.getD i default with order := some v }, rest, v⟩ := by
  obtain ⟨hi, ht, hm, hnone, hnotinrest, hndrest, hiff, hsub⟩ :=
    inv_pop_facts n ids deps0 st inv m t i rest hpop
  have hilen : i < st.descriptions.length := by rw [inv.hlen]; exact hi
  have hgetset : (st.descriptions.set i
      { st.descriptions.getD i default with order := some v }).getD i default
      = { st.descriptions.getD i default with order := some v } := by
    rw [List.getD_eq_getElem?_getD, List.getElem?_set_self (by simpa using hilen)]
    rfl
  have hgetne : ∀ j, j ≠ i → (st.descriptions.set i
      { st.descriptions.getD i default with order := some v }).getD j default
      = st.descriptions.getD j default := by
    intro j hj
    rw [List.getD_eq_getElem?_getD, List.getElem?_set_ne (fun h => hj h.symm),
      List.getD_eq_getElem?_getD]
  refine ⟨?_, ?_, ?_, ?_, ?_, ?_, ?_, ?_, ?_, ?_⟩
  · rw [List.length_set]; exact inv.hlen
  · rw [map_set_order (fun r => r.identifier) (fun _ _ => rfl) _ _ hilen]
    exact inv.hids
  · rw [map_set_order (fun r => r.dependencies) (fun _ _ => rfl) _ _ hilen]
    exact inv.hdeps
  · intro x hx; exact inv.hq x (hsub x hx)
  · exact hndrest
  · intro j hj
    by_cases hji : j = i
    · subst hji
      rw [hgetset]
      constructor
      · intro h; exact Option.noConfusion h
      · intro h; exact absurd h hnotinrest
    · rw [hgetne j hji]
      rw [inv.hun j hj, hiff j]
      constructor
      · rintro (h | h)
        · exact absurd h hji
        · exact h
      · intro h; exact Or.inr h
  · have hcount : (st.descriptions.set i
        { st.descriptions.getD i default with order := some v }).countP
          (fun r => r.order.isSome)
        = st.descriptions.countP (fun r => r.order.isSome) + 1 := by
      rw [List.countP_set _ _ _ _ hilen]
      have h1 : (st.descriptions[i].order.isSome) = false := by
        rw [← List.getD_eq_getElem _ default hilen, hnone]
        rfl
      rw [h1]
      simp
    dsimp only
    rw [hcount, ← inv.hlatest, hv]
  · intro r hr o ho
    dsimp only at hr ⊢
    rcases List.mem_or_eq_of_mem_set hr with hrold | hrnew
    · obtain ⟨h1, h2⟩ := inv.hord r hrold o ho
      exact ⟨h1, by omega⟩
    · subst hrnew
      simp only at ho
      injection ho with ho
      subst ho
      exact ⟨by omega, Nat.le_refl _⟩
  · intro r hr o ho d hd
    rcases List.mem_or_eq_of_mem_set hr with hrold | hrnew
    · obtain ⟨o', ho', hlt⟩ := inv.hF r hrold o ho d hd
      exact ⟨o', lookupOrder_set_preserve st.descriptions i
          { st.descriptions.getD i default with order := some v } rfl hnone
          d o' ho', hlt⟩
    · subst hrnew
      simp only at ho hd
      injection ho with ho
      subst ho
      obtain ⟨o', ho', hlt⟩ := hvgt d hd
      exact ⟨o', lookupOrder_set_preserve st.descriptions i
          { st.descriptions.getD i default with order := some v } rfl hnone
          d o' ho', hlt⟩
  · intro r hr d hd
    rcases List.mem_or_eq_of_mem_set hr with hrold | hrnew
    · exact inv.hdk r hrold d hd
    · subst hrnew
      simp only at hd
      exact inv.hdk _ (getD_mem_of_lt _ _ hilen) d hd

/-- Requeueing the popped description at a priority within the budget
preserves the invariant. -/
theorem inv_requeue (n : Nat) (ids : List String) (deps0 : List (List String))
    (st : ResolverState) (inv : Inv n ids deps0 st) (m t i : Nat)
    (rest : List QItem)
    (hpop : popMin st.queue = some ((m, t, i), rest))
    (p' : Nat) (hp' : p' ≤ 2*n+1) :
    Inv n ids deps0 ⟨st.descriptions, (p', t, i) :: rest, st.latest⟩ := by
  obtain ⟨hi, ht, hm, hnone, hnotinrest, hndrest, hiff, hsub⟩ :=
    inv_pop_facts n ids deps0 st inv m t i rest hpop
  refine ⟨inv.hlen, inv.hids, inv.hdeps, ?_, ?_, ?_, inv.hlatest, inv.hord,
    inv.hF, inv.hdk⟩
  · intro x hx
    rcases List.mem_cons.1 hx with hx | hx
    · subst hx
      exact ⟨hi, ht, hp'⟩
    · exact inv.hq x (hsub x hx)
  · simp only [List.map_cons]
    exact List.nodup_cons.2 ⟨hnotinrest, hndrest⟩
  · intro j hj
    rw [inv.hun j hj, hiff j]
    simp only [List.map_cons, List.mem_cons]

end Etl

namespace Etl

/-- One loop iteration preserves the invariant. -/
theorem inv_stepBody (n : Nat) (ids : List String) (deps0 : List (List String))
    (st : ResolverState) (inv : Inv n ids deps0 st) (m t i : Nat)
    (rest : List QItem)
    (hpop : popMin st.queue = some ((m, t, i), rest)) (hm : ¬ 2*n < m) :
    Inv n ids deps0 (stepBody st m t i rest) := by
  have hlatn : st.latest ≤ n := by
    rw [inv.hlatest, ← inv.hlen]
    exact List.countP_le_length _
  have hmax_le : maxSome ((st.descriptions.getD i default).dependencies.map
      (lookupOrder st.descriptions)) ≤ st.latest := by
    apply maxSome_le
    intro o ho k hk
    obtain ⟨d, hd, rfl⟩ := List.mem_map.1 ho
    obtain ⟨r, hr, hro⟩ := lookupOrder_some_mem _ _ _ hk
    exact (inv.hord r hr k hro).2
  have hm2n : m ≤ 2*n := Nat.le_of_not_lt hm
  unfold stepBody
  dsimp only
  split
  · rename_i hempty
    refine inv_assign n ids deps0 st inv m t i rest hpop _ rfl ?_
    intro d hd
    exfalso
    rw [List.isEmpty_iff, List.map_eq_nil_iff] at hempty
    rw [hempty] at hd
    cases hd
  · split
    · rename_i hne hall
      have hveq : Nat.max (maxSome ((st.descriptions.getD i default).dependencies.map
          (lookupOrder st.descriptions))) st.latest = st.latest :=
        Nat.max_eq_right hmax_le
      rw [hveq]
      refine inv_assign n ids deps0 st inv m t i rest hpop _ rfl ?_
      intro d hd
      have hmem : lookupOrder st.descriptions d ∈
          (st.descriptions.getD i default).dependencies.map
            (lookupOrder st.descriptions) :=
        List.mem_map_of_mem _ hd
      have htr : pyTruthy (lookupOrder st.descriptions d) = true :=
        List.all_eq_true.1 hall _ hmem
      obtain ⟨k, hk, _⟩ := pyTruthy_some _ htr
      obtain ⟨r, hr, hro⟩ := lookupOrder_some_mem _ _ _ hk
      exact ⟨k, hk, by have := (inv.hord r hr k hro).2; omega⟩
    · split
      · refine inv_requeue n ids deps0 st inv m t i rest hpop _ ?_
        have hveq : Nat.max (maxSome ((st.descriptions.getD i default).dependencies.map
            (lookupOrder st.descriptions))) st.latest = st.latest :=
          Nat.max_eq_right hmax_le
        rw [hveq]
        have hmx : Nat.max st.latest m ≤ 2*n := Nat.max_le.2 ⟨by omega, hm2n⟩
        omega
      · refine inv_requeue n ids deps0 st inv m t i rest hpop _ ?_
        have hmx : Nat.max st.latest m ≤ 2*n := Nat.max_le.2 ⟨by omega, hm2n⟩
        omega

/-- Every loop iteration strictly decreases the priority budget. -/
theorem qMeasure_stepBody_lt (n : Nat) (st : ResolverState) (m t i : Nat)
    (rest : List QItem)
    (hpop : popMin st.queue = some ((m, t, i), rest)) (hm : ¬ 2*n < m) :
    qMeasure n (stepBody st m t i rest) < qMeasure n st := by
  have hperm := popMin_perm _ _ _ hpop
  have hqsum : (st.queue.map (fun x => 2*n + 2 - x.1)).sum
      = (2*n+2 - m) + (rest.map (fun x => 2*n + 2 - x.1)).sum := by
    have h := (hperm.map (fun x => 2*n + 2 - x.1)).sum_eq
    simpa using h
  have hm2 : m ≤ 2*n := Nat.le_of_not_lt hm
  unfold stepBody
  dsimp only
  split
  · unfold qMeasure
    dsimp only
    rw [hqsum]
    omega
  · split
    · unfold qMeasure
      dsimp only
      rw [hqsum]
      omega
    · split
      · unfold qMeasure
        dsimp only
        simp only [List.map_cons, List.sum_cons]
        rw [hqsum]
        have hmp : m < Nat.max (Nat.max (maxSome ((st.descriptions.getD i
            default).dependencies.map (lookupOrder st.descriptions))) st.latest) m
              + 1 :=
          Nat.lt_succ_of_le (Nat.le_max_right _ m)
        have hsub := Nat.sub_lt_sub_left (show m < 2*n+2 by omega) hmp
        omega
      · unfold qMeasure
        dsimp only
        simp only [List.map_cons, List.sum_cons]
        rw [hqsum]
        have hmp : m < Nat.max st.latest m + 1 :=
          Nat.lt_succ_of_le (Nat.le_max_right _ m)
        have hsub := Nat.sub_lt_sub_left (show m < 2*n+2 by omega) hmp
        omega

end Etl

namespace Etl

/-- With more fuel than the remaining priority budget, the loop never runs
out: the Python `while` loop always terminates (returning or raising). -/
theorem resolveLoop_ne_outOfFuel (n : Nat) (ids : List String)
    (deps0 : List (List String)) :
    ∀ (fuel : Nat) (st : ResolverState), Inv n ids deps0 st →
      qMeasure n st < fuel → resolveLoop n fuel st ≠ .outOfFuel := by
  intro fuel
  induction fuel with
  | zero => intro st _ hmeas; exact absurd hmeas (Nat.not_lt_zero _)
  | succ k ih =>
    intro st inv hmeas
    rw [resolveLoop]
    rcases hq : popMin st.queue with _ | ⟨⟨⟨m, t, i⟩, rest⟩⟩
    · intro h; cases h
    · dsimp only
      split
      · intro h; cases h
      · rename_i hm
        exact ih _ (inv_stepBody n ids deps0 st inv m t i rest hq hm)
          (Nat.lt_of_lt_of_le (qMeasure_stepBody_lt n st m t i rest hq hm)
            (Nat.lt_succ_iff.1 hmeas))

/-- A normal return hands back the descriptions of an invariant-satisfying
state with an empty queue, sorted by order. -/
theorem resolveLoop_ok_end_inv (n : Nat) (ids : List String)
    (deps0 : List (List String)) :
    ∀ (fuel : Nat) (st : ResolverState) (s f : List RelationDescription),
      Inv n ids deps0 st → resolveLoop n fuel st = .ok s f →
      ∃ stE, Inv n ids deps0 stE ∧ stE.descriptions = f ∧ stE.queue = []
        ∧ s = sortByOrder f := by
  intro fuel
  induction fuel with
  | zero => intro st s f _ h; cases h
  | succ k ih =>
    intro st s f inv h
    rw [resolveLoop] at h
    rcases hq : popMin st.queue with _ | ⟨⟨⟨m, t, i⟩, rest⟩⟩
    · simp only [hq] at h
      injection h with h1 h2
      subst h2
      exact ⟨st, inv, rfl, (popMin_eq_none_iff _).1 hq, h1.symm⟩
    · simp only [hq] at h
      split at h
      · cases h
      · rename_i hm
        exact ih _ s f (inv_stepBody n ids deps0 st inv m t i rest hq hm) h

/-- One loop iteration preserves the rank-priority bound, for any rank
function that strictly increases along the (narrowed) dependency edges. -/
theorem qrank_stepBody (n : Nat) (ids : List String) (deps0 : List (List String))
    (rank : Nat → Nat) (st : ResolverState) (inv : Inv n ids deps0 st)
    (hedge : ∀ i j, j < n → i < n → ids.getD j "" ∈ deps0.getD i [] →
      rank j < rank i)
    (m t i : Nat) (rest : List QItem)
    (hpop : popMin st.queue = some ((m, t, i), rest)) (hm : ¬ 2*n < m)
    (hqr : QRank rank st) :
    QRank rank (stepBody st m t i rest) := by
  obtain ⟨hi, ht, hmb, hnone, hnotinrest, hndrest, hiff, hsubq⟩ :=
    inv_pop_facts n ids deps0 st inv m t i rest hpop
  have hilen : i < st.descriptions.length := by rw [inv.hlen]; exact hi
  have hmax_le : maxSome ((st.descriptions.getD i default).dependencies.map
      (lookupOrder st.descriptions)) ≤ st.latest := by
    apply maxSome_le
    intro o ho k hk
    obtain ⟨d, hd, rfl⟩ := List.mem_map.1 ho
    obtain ⟨r, hr, hro⟩ := lookupOrder_some_mem _ _ _ hk
    exact (inv.hord r hr k hro).2
  -- in a requeue branch some dependency is still unordered; its queue entry
  -- bounds the popped priority through the rank of the dependency
  have hkey : ¬(((st.descriptions.getD i default).dependencies.map
        (lookupOrder st.descriptions)).all pyTruthy = true) →
      m ≤ st.latest + rank i := by
    intro hnall
    have hex : ∃ o ∈ (st.descriptions.getD i default).dependencies.map
        (lookupOrder st.descriptions), ¬(pyTruthy o = true) := by
      by_contra hcon
      push_neg at hcon
      exact hnall (List.all_eq_true.2 hcon)
    obtain ⟨o, ho, hno⟩ := hex
    obtain ⟨d, hd, rfl⟩ := List.mem_map.1 ho
    have hlook_none : lookupOrder st.descriptions d = none := by
      rcases hcase : lookupOrder st.descriptions d with _ | k
      · rfl
      · exfalso
        obtain ⟨r, hr, hro⟩ := lookupOrder_some_mem _ _ _ hcase
        have h1 := (inv.hord r hr k hro).1
        exact hno (by rw [hcase]; exact pyTruthy_of_some_pos k h1)
    have hdin : d ∈ ids := inv.hdk _ (getD_mem_of_lt _ _ hilen) d hd
    have hdin' : d ∈ st.descriptions.map (·.identifier) := by
      rw [inv.hids]; exact hdin
    obtain ⟨j, hj, hjid, hjlook⟩ := lookupOrder_first_match _ _ hdin'
    have hjorder : (st.descriptions.getD j default).order = none := by
      rw [← hjlook]; exact hlook_none
    have hjn : j < n := by rw [← inv.hlen]; exact hj
    have hinqueue : j ∈ st.queue.map (fun x => x.2.2) :=
      (inv.hun j hjn).1 hjorder
    have hrankj : rank j < rank i := by
      apply hedge i j hjn hi
      · have h1 : ids.getD j "" = (st.descriptions.getD j default).identifier := by
          rw [← inv.hids, getD_map' (·.identifier) _ j hj]
        have h2 : deps0.getD i [] = (st.descriptions.getD i default).dependencies := by
          rw [← inv.hdeps, getD_map' (·.dependencies) _ i hilen]
        rw [h1, h2, hjid]
        exact hd
    have hji : j ≠ i := fun hcontra => by
      rw [hcontra] at hrankj
      exact Nat.lt_irrefl _ hrankj
    have hjrest : j ∈ rest.map (fun x => x.2.2) := by
      rcases (hiff j).1 hinqueue with h | h
      · exact absurd h hji
      · exact h
    obtain ⟨y, hy, hyj⟩ := List.mem_map.1 hjrest
    have h1 : m ≤ y.1 := popMin_min _ _ _ hpop y hy
    have h2 : y.1 ≤ st.latest + rank y.2.2 + 1 := hqr y (hsubq y hy)
    rw [hyj] at h2
    omega
  unfold stepBody
  dsimp only
  split
  · -- assignment with no dependencies: latest grows
    intro x hx
    dsimp only at hx ⊢
    have := hqr x (hsubq x hx)
    omega
  · split
    · intro x hx
      dsimp only at hx ⊢
      have := hqr x (hsubq x hx)
      have hl : st.latest ≤ Nat.max (maxSome ((st.descriptions.getD i
          default).dependencies.map (lookupOrder st.descriptions))) st.latest :=
        Nat.le_max_right _ _
      omega
    · split
      · rename_i hne hnall hany
        have hkey' := hkey hnall
        intro x hx
        dsimp only at hx ⊢
        rcases List.mem_cons.1 hx with hx | hx
        · subst hx
          dsimp only
          have hveq : Nat.max (maxSome ((st.descriptions.getD i
              default).dependencies.map (lookupOrder st.descriptions))) st.latest
                = st.latest :=
            Nat.max_eq_right hmax_le
          rw [hveq]
          have : Nat.max st.latest m ≤ st.latest + rank i := by
            have h1 : st.latest ≤ st.latest + rank i := Nat.le_add_right _ _
            exact Nat.max_le.2 ⟨h1, hkey'⟩
          omega
        · have := hqr x (hsubq x hx)
          omega
      · rename_i hne hnall hnany
        have hkey' := hkey hnall
        intro x hx
        dsimp only at hx ⊢
        rcases List.mem_cons.1 hx with hx | hx
        · subst hx
          dsimp only
          have : Nat.max st.latest m ≤ st.latest + rank i := by
            have h1 : st.latest ≤ st.latest + rank i := Nat.le_add_right _ _
            exact Nat.max_le.2 ⟨h1, hkey'⟩
          omega
        · have := hqr x (hsubq x hx)
          omega

end Etl

namespace Etl

/-- With a rank function witnessing acyclicity, every popped priority stays
at most `2n`, so the loop returns normally once given enough fuel. -/
theorem resolveLoop_acyclic_ok (n : Nat) (ids : List String)
    (deps0 : List (List String)) (rank : Nat → Nat)
    (hedge : ∀ i j, j < n → i < n → ids.getD j "" ∈ deps0.getD i [] →
      rank j < rank i)
    (hrank : ∀ i, i < n → rank i < n) :
    ∀ (fuel : Nat) (st : ResolverState), Inv n ids deps0 st → QRank rank st →
      qMeasure n st < fuel → ∃ s f, resolveLoop n fuel st = .ok s f := by
  intro fuel
  induction fuel with
  | zero => intro st _ _ hmeas; exact absurd hmeas (Nat.not_lt_zero _)
  | succ k ih =>
    intro st inv hqr hmeas
    rw [resolveLoop]
    rcases hq : popMin st.queue with _ | ⟨⟨⟨m, t, i⟩, rest⟩⟩
    · exact ⟨_, _, rfl⟩
    · dsimp only
      have hmem : (m, t, i) ∈ st.queue :=
        (popMin_perm _ _ _ hq).mem_iff.2 (List.mem_cons_self _ _)
      have hi : i < n := (inv.hq _ hmem).1
      have hlatn : st.latest ≤ n := by
        rw [inv.hlatest, ← inv.hlen]
        exact List.countP_le_length _
      have hbound : m ≤ 2*n := by
        have h1 := hqr _ hmem
        have h2 := hrank i hi
        dsimp only at h1
        omega
      have hm : ¬ 2*n < m := Nat.not_lt.2 hbound
      rw [if_neg hm]
      exact ih _ (inv_stepBody n ids deps0 st inv m t i rest hq hm)
        (qrank_stepBody n ids deps0 rank st inv hedge m t i rest hq hm hqr)
        (Nat.lt_of_lt_of_le (qMeasure_stepBody_lt n st m t i rest hq hm)
          (Nat.lt_succ_iff.1 hmeas))

/-- The invariant holds at the top of the loop for a fresh batch with unique
identifiers. -/
theorem inv_init (descs : List RelationDescription)
    (hnd : (descs.map (·.identifier)).Nodup)
    (hfresh : ∀ r ∈ descs, r.order = none) :
    Inv (nr_tables descs) (descs.map (·.identifier))
      ((descs.map (narrowDependencies (known_tables descs))).map
        (·.dependencies))
      (initState descs) := by
  have hn : nr_tables descs = descs.length := by
    unfold nr_tables known_tables
    rw [List.dedup_eq_self.2 hnd, List.length_map]
  refine ⟨?_, ?_, rfl, ?_, ?_, ?_, ?_, ?_, ?_, ?_⟩
  · show (descs.map (narrowDependencies (known_tables descs))).length = _
    rw [List.length_map, hn]
  · show (descs.map (narrowDependencies (known_tables descs))).map (·.identifier)
        = descs.map (·.identifier)
    rw [List.map_map]
    exact List.map_congr_left (fun d _ => narrowDependencies_identifier _ d)
  · intro x hx
    show x.2.2 < nr_tables descs ∧ x.2.1 = x.2.2 ∧ x.1 ≤ 2 * nr_tables descs + 1
    obtain ⟨j, hj, rfl⟩ := List.mem_map.1 hx
    rw [List.mem_range] at hj
    refine ⟨?_, rfl, ?_⟩
    · show j < nr_tables descs
      omega
    · show 1 ≤ 2 * nr_tables descs + 1
      omega
  · show (((List.range descs.length).map (fun j => ((1, j, j) : QItem))).map
        (fun x => x.2.2)).Nodup
    rw [List.map_map]
    have : ((fun x : QItem => x.2.2) ∘ fun j => ((1, j, j) : QItem))
        = fun j => j := rfl
    rw [this]
    simpa using List.nodup_range descs.length
  · intro j hj
    have hjlen : j < descs.length := by omega
    constructor
    · intro _
      show j ∈ ((List.range descs.length).map (fun j => ((1, j, j) : QItem))).map
          (fun x => x.2.2)
      rw [List.map_map]
      refine List.mem_map.2 ⟨j, ?_, rfl⟩
      rw [List.mem_range]
      exact hjlen
    · intro _
      show ((descs.map (narrowDependencies (known_tables descs))).getD j
          default).order = none
      rw [getD_map' (narrowDependencies (known_tables descs)) _ j hjlen,
        narrowDependencies_order]
      exact hfresh _ (getD_mem_of_lt _ _ hjlen)
  · show 0 = (descs.map (narrowDependencies (known_tables descs))).countP
        (fun r => r.order.isSome)
    symm
    rw [List.countP_eq_zero]
    intro r hr
    obtain ⟨d, hd, rfl⟩ := List.mem_map.1 hr
    rw [narrowDependencies_order, hfresh d hd]
    simp
  · intro r hr o ho
    obtain ⟨d, hd, rfl⟩ := List.mem_map.1 hr
    rw [narrowDependencies_order, hfresh d hd] at ho
    cases ho
  · intro r hr o ho
    obtain ⟨d, hd, rfl⟩ := List.mem_map.1 hr
    rw [narrowDependencies_order, hfresh d hd] at ho
    cases ho
  · intro r hr d hd
    obtain ⟨d0, hd0, rfl⟩ := List.mem_map.1 hr
    have := narrowDependencies_deps_known (known_tables descs) d0 d hd
    have hmem : d ∈ known_tables descs := List.elem_iff.1 this
    exact hmem

/-- The rank bound holds initially: every priority is 1. -/
theorem qrank_init (descs : List RelationDescription) (rank : Nat → Nat) :
    QRank rank (initState descs) := by
  intro x hx
  obtain ⟨j, _, rfl⟩ := List.mem_map.1 hx
  show 1 ≤ 0 + rank j + 1
  omega

/-- The initial priority budget. -/
theorem qMeasure_init (descs : List RelationDescription) (n : Nat) :
    qMeasure n (initState descs) = descs.length * (2*n + 1) := by
  unfold qMeasure initState
  dsimp only
  rw [List.map_map]
  have : ((fun x : QItem => 2*n + 2 - x.1) ∘ fun j => ((1, j, j) : QItem))
      = fun _ => 2*n + 1 := by
    funext j
    show 2*n + 2 - 1 = 2*n + 1
    omega
  rw [this, List.map_const', List.sum_replicate, List.length_range,
    smul_eq_mul]

end Etl

namespace Etl

/-- At a normal end of the loop every description is ordered and each
dependency edge inside the batch is strictly respected by the orders. -/
theorem end_state_edge_orders (descs : List RelationDescription)
    (hnd : (descs.map (·.identifier)).Nodup)
    (stE : ResolverState)
    (invE : Inv (nr_tables descs) (descs.map (·.identifier))
        ((descs.map (narrowDependencies (known_tables descs))).map
          (·.dependencies)) stE)
    (hqE : stE.queue = []) :
    ∀ j i, EdgeIn descs j i →
      ∃ oi oj, (stE.descriptions.getD i default).order = some oi
        ∧ (stE.descriptions.getD j default).order = some oj ∧ oj < oi := by
  intro j i hedge
  obtain ⟨hj, hi, hd⟩ := hedge
  have hlen : stE.descriptions.length = descs.length := by
    have := congrArg List.length invE.hids
    simpa using this
  have hn : nr_tables descs = descs.length := by
    unfold nr_tables known_tables
    rw [List.dedup_eq_self.2 hnd, List.length_map]
  have hassigned : ∀ idx, idx < descs.length →
      ∃ o, (stE.descriptions.getD idx default).order = some o := by
    intro idx hidx
    rcases hcase : (stE.descriptions.getD idx default).order with _ | o
    · exfalso
      have hmem := (invE.hun idx (by omega)).1 hcase
      rw [hqE] at hmem
      cases hmem
    · exact ⟨o, rfl⟩
  obtain ⟨oi, hoi⟩ := hassigned i hi
  obtain ⟨oj, hoj⟩ := hassigned j hj
  refine ⟨oi, oj, hoi, hoj, ?_⟩
  have hproj : ∀ idx, idx < descs.length →
      (stE.descriptions.getD idx default).identifier
        = (descs.getD idx default).identifier := by
    intro idx hidx
    have h1 : (stE.descriptions.map (·.identifier)).getD idx ""
        = (descs.map (·.identifier)).getD idx "" := by rw [invE.hids]
    rw [getD_map' (·.identifier) _ idx (by omega),
      getD_map' (·.identifier) _ idx hidx] at h1
    exact h1
  have hdeps_i : (stE.descriptions.getD i default).dependencies
      = (narrowDependencies (known_tables descs)
          (descs.getD i default)).dependencies := by
    have h1 : (stE.descriptions.map (·.dependencies)).getD i []
        = ((descs.map (narrowDependencies (known_tables descs))).map
            (·.dependencies)).getD i [] := by
      rw [invE.hdeps]
    rw [getD_map' (·.dependencies) _ i (by omega)] at h1
    rw [getD_map' (·.dependencies) _ i
      (by rw [List.length_map]; exact hi)] at h1
    rw [getD_map' (narrowDependencies (known_tables descs)) _ i hi] at h1
    exact h1
  have hd_in : (descs.getD j default).identifier
      ∈ (stE.descriptions.getD i default).dependencies := by
    rw [hdeps_i]
    apply narrowDependencies_mem _ _ _ hd
    exact List.elem_iff.2 (List.mem_map_of_mem _ (getD_mem_of_lt _ _ hj))
  obtain ⟨o', hlook, hlt⟩ := invE.hF _
    (getD_mem_of_lt _ _ (show i < stE.descriptions.length by omega)) oi hoi
    ((descs.getD j default).identifier) hd_in
  have hndE : (stE.descriptions.map (·.identifier)).Nodup := by
    rw [invE.hids]; exact hnd
  have hlookj := lookupOrder_getD_of_nodup stE.descriptions hndE j (by omega)
  rw [hproj j hj] at hlookj
  rw [hlookj, hoj] at hlook
  injection hlook with hlook
  rw [hlook]
  exact hlt

/-- Along a strictly increasing chain, the value at the head is at most the
value at the last element. -/
theorem chain_head_le_getLast (g : Nat → Nat) :
    ∀ (c : List Nat) (a : Nat), (a :: c).Chain' (fun x y => g x < g y) →
      g a ≤ g ((a :: c).getLast (List.cons_ne_nil a c)) := by
  intro c
  induction c with
  | nil => intro a _; exact Nat.le_refl _
  | cons b tl ih =>
    intro a hch
    rw [List.chain'_cons] at hch
    have h2 := ih b hch.2
    have hgl : (a :: b :: tl).getLast (List.cons_ne_nil a (b :: tl))
        = (b :: tl).getLast (List.cons_ne_nil b tl) := List.getLast_cons _
    rw [hgl]
    exact Nat.le_trans (Nat.le_of_lt hch.1) h2

end Etl

namespace Etl

/-! ## Claim C1: resolved orders respect dependency edges -/

/-- C1: when the resolver accepts a batch (unique identifiers, fresh orders,
no cycle error), every dependency edge `A depends_on B` with both relations
in the batch gets `order B < order A`, and the returned list is the batch
sorted by assigned order (a permutation of the final descriptors that is
pairwise ordered by the assigned order, ties kept stable by the sort). -/
theorem order_by_dependencies_orders_respect_edges :
    ∀ (descs : List RelationDescription) (fuel : Nat)
      (s f : List RelationDescription),
      (descs.map (·.identifier)).Nodup →
      (∀ r ∈ descs, r.order = none) →
      order_by_dependencies descs fuel = .ok s f →
      (∀ j i, EdgeIn descs j i →
        ∃ oi oj, (f.getD i default).order = some oi
          ∧ (f.getD j default).order = some oj ∧ oj < oi)
      ∧ s.Perm f
      ∧ s.Pairwise (fun a b => a.order.getD 0 ≤ b.order.getD 0) := by
  intro descs fuel s f hnd hfresh hres
  have hinv0 := inv_init descs hnd hfresh
  unfold order_by_dependencies at hres
  obtain ⟨stE, invE, hfE, hqE, hsE⟩ :=
    resolveLoop_ok_end_inv _ _ _ fuel (initState descs) s f hinv0 hres
  subst hfE
  refine ⟨end_state_edge_orders descs hnd stE invE hqE, ?_, ?_⟩
  · rw [hsE]
    unfold sortByOrder
    exact List.perm_insertionSort _ _
  · rw [hsE]
    unfold sortByOrder
    haveI : IsTotal RelationDescription
        (fun a b => a.order.getD 0 ≤ b.order.getD 0) :=
      ⟨fun a b => Nat.le_total _ _⟩
    haveI : IsTrans RelationDescription
        (fun a b => a.order.getD 0 ≤ b.order.getD 0) :=
      ⟨fun a b c h1 h2 => Nat.le_trans h1 h2⟩
    exact List.sorted_insertionSort _ _

/-- Witness for C1 on the two-relation batch with one edge. -/
theorem order_by_dependencies_orders_respect_edges_witness :
    (∃ oi oj,
      (([⟨"a.a", ["b.b"], some 2⟩, ⟨"b.b", [], some 1⟩]
          : List RelationDescription).getD 0 default).order = some oi
      ∧ (([⟨"a.a", ["b.b"], some 2⟩, ⟨"b.b", [], some 1⟩]
          : List RelationDescription).getD 1 default).order = some oj
      ∧ oj < oi)
    ∧ ([⟨"b.b", [], some 1⟩, ⟨"a.a", ["b.b"], some 2⟩]
        : List RelationDescription).Perm
        [⟨"a.a", ["b.b"], some 2⟩, ⟨"b.b", [], some 1⟩]
    ∧ ([⟨"b.b", [], some 1⟩, ⟨"a.a", ["b.b"], some 2⟩]
        : List RelationDescription).Pairwise
        (fun a b => a.order.getD 0 ≤ b.order.getD 0) := by
  have h := order_by_dependencies_orders_respect_edges
      [⟨"a.a", ["b.b"], none⟩, ⟨"b.b", [], none⟩] 20
      [⟨"b.b", [], some 1⟩, ⟨"a.a", ["b.b"], some 2⟩]
      [⟨"a.a", ["b.b"], some 2⟩, ⟨"b.b", [], some 1⟩]
      (by decide) (by decide) (by decide)
  exact ⟨h.1 1 0 (by refine ⟨by decide, by decide, by decide⟩), h.2⟩

/-! ## Claim C2: cycle detection and acyclic termination -/

/-- C2: a batch whose in-batch dependency graph has a directed cycle
(two-relation cycles and self-dependencies included) makes the resolver raise
`CyclicDependencyError` (returning no ordering), while a batch whose in-batch
graph admits a topological rank bounded by the batch size — exactly the
acyclic batches — terminates normally, the requeued priorities never
exceeding twice the relation count. -/
theorem order_by_dependencies_cycle_detection :
    (∀ (descs : List RelationDescription) (fuel : Nat),
      (descs.map (·.identifier)).Nodup →
      (∀ r ∈ descs, r.order = none) →
      HasCycle descs →
      resolveFuel descs ≤ fuel →
      order_by_dependencies descs fuel = .cyclicDependencyError)
    ∧ (∀ (descs : List RelationDescription) (fuel : Nat) (rank : Nat → Nat),
      (descs.map (·.identifier)).Nodup →
      (∀ r ∈ descs, r.order = none) →
      (∀ j i, EdgeIn descs j i → rank j < rank i) →
      (∀ i, i < descs.length → rank i < descs.length) →
      resolveFuel descs ≤ fuel →
      (order_by_dependencies descs fuel).isOk = true) := by
  have hn_eq : ∀ descs : List RelationDescription,
      (descs.map (·.identifier)).Nodup → nr_tables descs = descs.length := by
    intro descs hnd
    unfold nr_tables known_tables
    rw [List.dedup_eq_self.2 hnd, List.length_map]
  have hfuel_meas : ∀ (descs : List RelationDescription) (fuel : Nat),
      resolveFuel descs ≤ fuel →
      qMeasure (nr_tables descs) (initState descs) < fuel := by
    intro descs fuel hf
    rw [qMeasure_init]
    unfold resolveFuel at hf
    omega
  constructor
  · intro descs fuel hnd hfresh hcyc hfuel
    have hinv0 := inv_init descs hnd hfresh
    cases hres : order_by_dependencies descs fuel with
    | ok s f =>
      exfalso
      unfold order_by_dependencies at hres
      obtain ⟨stE, invE, hfE, hqE, hsE⟩ :=
        resolveLoop_ok_end_inv _ _ _ fuel (initState descs) s f hinv0 hres
      obtain ⟨a, c, hchain, hclose⟩ := hcyc
      have hedge_g : ∀ x y, EdgeIn descs x y →
          (stE.descriptions.getD x default).order.getD 0
            < (stE.descriptions.getD y default).order.getD 0 := by
        intro x y hxy
        obtain ⟨oi, oj, hoy, hox, hlt⟩ :=
          end_state_edge_orders descs hnd stE invE hqE x y hxy
        rw [hox, hoy]
        simpa using hlt
      have hchain_g : (a :: c).Chain'
          (fun x y => (stE.descriptions.getD x default).order.getD 0
            < (stE.descriptions.getD y default).order.getD 0) :=
        List.Chain'.imp (fun x y h => hedge_g x y h) hchain
      have h1 := chain_head_le_getLast
        (fun idx => (stE.descriptions.getD idx default).order.getD 0) c a
        hchain_g
      have h2 := hedge_g _ _ hclose
      dsimp only at h1
      omega
    | cyclicDependencyError => rfl
    | outOfFuel =>
      exfalso
      unfold order_by_dependencies at hres
      exact resolveLoop_ne_outOfFuel _ _ _ fuel _ hinv0
        (hfuel_meas descs fuel hfuel) hres
  · intro descs fuel rank hnd hfresh hedge hrank hfuel
    have hinv0 := inv_init descs hnd hfresh
    have hedge' : ∀ i j, j < nr_tables descs → i < nr_tables descs →
        (descs.map (·.identifier)).getD j "" ∈
          ((descs.map (narrowDependencies (known_tables descs))).map
            (·.dependencies)).getD i [] →
        rank j < rank i := by
      intro i j hjn hin hmem
      have hjlen : j < descs.length := by rw [← hn_eq descs hnd]; exact hjn
      have hilen : i < descs.length := by rw [← hn_eq descs hnd]; exact hin
      apply hedge
      refine ⟨hjlen, hilen, ?_⟩
      rw [getD_map' (·.identifier) _ j hjlen] at hmem
      rw [getD_map' (·.dependencies) _ i
        (by rw [List.length_map]; exact hilen)] at hmem
      rw [getD_map' (narrowDependencies (known_tables descs)) _ i hilen] at hmem
      exact narrowDependencies_deps_subset _ _ _ hmem
    have hrank' : ∀ i, i < nr_tables descs → rank i < nr_tables descs := by
      intro i hi
      rw [hn_eq descs hnd] at hi ⊢
      exact hrank i hi
    obtain ⟨s, f, hok⟩ := resolveLoop_acyclic_ok _ _ _ rank hedge' hrank'
      fuel _ hinv0 (qrank_init descs rank) (hfuel_meas descs fuel hfuel)
    unfold order_by_dependencies
    rw [hok]
    rfl

/-- Witness for C2: the two-relation cycle raises, and a two-relation chain
with the identity rank resolves. -/
theorem order_by_dependencies_cycle_detection_witness :
    order_by_dependencies
        [⟨"c.a", ["c.b"], none⟩, ⟨"c.b", ["c.a"], none⟩] 50
      = .cyclicDependencyError
    ∧ (order_by_dependencies
        [⟨"d.a", [], none⟩, ⟨"d.b", ["d.a"], none⟩] 50).isOk = true := by
  constructor
  · refine order_by_dependencies_cycle_detection.1 _ 50 (by decide) (by decide)
      ⟨1, [0], ?_, ?_⟩ (by decide)
    · refine List.chain'_cons.2 ⟨?_, List.chain'_singleton 0⟩
      exact ⟨by decide, by decide, by decide⟩
    · exact ⟨by decide, by decide, by decide⟩
  · refine order_by_dependencies_cycle_detection.2 _ 50 (fun i => i)
      (by decide) (by decide) ?_ ?_ (by decide)
    · intro j i h
      obtain ⟨hj, hi, hd⟩ := h
      simp only [List.length_cons, List.length_nil] at hj hi
      interval_cases j <;> interval_cases i <;> revert hd <;> decide
    · intro i hi
      simpa using hi

end Etl
